import Mathlib

set_option autoImplicit false

/-!
Verification of the grid-derivation engine of jsongrid-desktop
(src/utils/deriveGridData.ts).

The engine turns raw JSON-like text into a tabular grid: it parses the
text tolerantly, walks the parsed value collecting candidate arrays,
scores them, sorts the candidates and selects the best one, normalizes
its elements into rows, infers columns, and formats the winning array's
path.

Shallow embedding conventions:
* Parsed JavaScript values are modelled by the inductive `Json`
  (numbers as `Int`; the engine never performs arithmetic on element
  values, so the numeric tower is irrelevant to every property proved
  here).
* The two external parsers (`JSON5.parse` and `JSON.parse`) are
  parameters of type `String → Except String Json`; the engine's own
  logic is defined over them.
* JavaScript floating-point score arithmetic is modelled exactly: the
  score is kept as the symbolic value `Score` (recording the integers
  that enter the formula) and interpreted into `ℝ` by `Score.interp`.
  The comparisons the engine performs on scores are implemented by the
  executable comparator `Score.leB`, proved to agree with the real
  interpretation.
* `Math.ceil(sampleCount * 0.4)` for `1 ≤ sampleCount ≤ 50` equals the
  exact `⌈2n/5⌉ = (2n+4)/5` (the double-rounding error of `n * 0.4`
  is far below the distance to the nearest integer boundary in this
  range), so the threshold is embedded as `(2 * n + 4) / 5`.
-/

/-- Parsed JavaScript value (result of `JSON5.parse` / `JSON.parse`). -/
inductive Json where
  | null : Json
  | bool (b : Bool) : Json
  | num (n : Int) : Json
  | str (s : String) : Json
  | arr (elems : List Json) : Json
  | obj (fields : List (String × Json)) : Json

/-- `el && typeof el === 'object' && !Array.isArray(el)`: a plain object. -/
def Json.isPlainObject : Json → Bool
  | .obj _ => true
  | _ => false

/-- `v && typeof v === 'object'`: an object or an array (excludes `null`). -/
def Json.isStructural : Json → Bool
  | .obj _ => true
  | .arr _ => true
  | _ => false

/-- Column type, `GridColumn['type']` in the source. -/
inductive ColType where
  | string | number | boolean | date | object | array | null | undefined
  deriving DecidableEq, Repr

/-- ASCII digit test: JavaScript regex `\d` is exactly `[0-9]`. -/
def isDigitChar (c : Char) : Bool := '0' ≤ c && c ≤ '9'

/-- The character set matched by the JavaScript regex class `\s`
(whitespace, line terminators, and Unicode space separators). -/
def jsWhitespace (c : Char) : Bool :=
  c = ' ' || c = '\t' || c = '\n' || c = '\r' ||
  c = (Char.ofNat 0x0B) || c = (Char.ofNat 0x0C) ||
  c = (Char.ofNat 0xA0) || c = (Char.ofNat 0x1680) ||
  ((Char.ofNat 0x2000) ≤ c && c ≤ (Char.ofNat 0x200A)) ||
  c = (Char.ofNat 0x2028) || c = (Char.ofNat 0x2029) ||
  c = (Char.ofNat 0x202F) || c = (Char.ofNat 0x205F) ||
  c = (Char.ofNat 0x3000) || c = (Char.ofNat 0xFEFF)

/-- Consume exactly `n` digits from the front of `cs`. -/
def takeDigits : Nat → List Char → Option (List Char)
  | 0, cs => some cs
  | n + 1, c :: cs => if isDigitChar c then takeDigits n cs else none
  | _ + 1, [] => none

/-- Consume one expected character. -/
def takeChar (c : Char) : List Char → Option (List Char)
  | c' :: cs => if c' = c then some cs else none
  | [] => none

/-- After the seconds field: `(\.\d{1,3})?([+-]\d{2}:\d{2}|Z)?$`.
Greedy matching coincides with the regex here because the optional
pieces start with characters (`.`, `+`, `-`, `Z`) that cannot also be
digits. -/
def dateTzEnd : List Char → Bool
  | [] => true
  | ['Z'] => true
  | c :: cs =>
    if c = '+' || c = '-' then
      match takeDigits 2 cs with
      | some rest =>
        match takeChar ':' rest with
        | some rest2 =>
          match takeDigits 2 rest2 with
          | some [] => true
          | _ => false
        | none => false
      | none => false
    else false

/-- Up to three fractional-second digits (at least one), then the
time-zone / end-of-string part. -/
def dateFrac : List Char → Bool
  | c :: cs =>
    if isDigitChar c then
      match cs with
      | c2 :: cs2 =>
        if isDigitChar c2 then
          match cs2 with
          | c3 :: cs3 => if isDigitChar c3 then dateTzEnd cs3 else dateTzEnd cs2
          | [] => true
        else dateTzEnd cs
      | [] => true
    else false
  | [] => false

/-- After the frac-or-tz decision point: `(\.\d{1,3})?([+-]...|Z)?$`. -/
def dateAfterSeconds : List Char → Bool
  | '.' :: cs => dateFrac cs
  | cs => dateTzEnd cs

/-- `HH:MM:SS` then the tail. -/
def dateTime (cs : List Char) : Bool :=
  match takeDigits 2 cs with
  | some r1 =>
    match takeChar ':' r1 with
    | some r2 =>
      match takeDigits 2 r2 with
      | some r3 =>
        match takeChar ':' r3 with
        | some r4 =>
          match takeDigits 2 r4 with
          | some r5 => dateAfterSeconds r5
          | none => false
        | none => false
      | none => false
    | none => false
  | none => false

/-- The full date regex of the source,
`/^\d{4}-\d{2}-\d{2}([T\s]\d{2}:\d{2}:\d{2}(\.\d{1,3})?([+-]\d{2}:\d{2}|Z)?)?$/`,
as a deterministic matcher over the string's characters. -/
def jsDateMatch (cs : List Char) : Bool :=
  match takeDigits 4 cs with
  | some r1 =>
    match takeChar '-' r1 with
    | some r2 =>
      match takeDigits 2 r2 with
      | some r3 =>
        match takeChar '-' r3 with
        | some r4 =>
          match takeDigits 2 r4 with
          | some [] => true
          | some (c :: rest) =>
            if c = 'T' || jsWhitespace c then dateTime rest else false
          | none => false
        | none => false
      | none => false
    | none => false
  | none => false

/-- `inferType` of the source: heuristic scalar-ish type of a value. -/
def inferType : Json → ColType
  | .null => .null
  | .str s => if jsDateMatch s.data then .date else .string
  | .num _ => .number
  | .bool _ => .boolean
  | .arr _ => .array
  | .obj _ => .object

/-- `toCell` of the source: convert nested structures to short
printable strings for grid cells; scalars pass through. -/
def toCell (v : Json) : Json :=
  match inferType v with
  | .object => .str "Object"
  | .array =>
    match v with
    | .arr xs => .str ("Array(" ++ toString xs.length ++ ")")
    | _ => v
  | _ => v

/-! ## TolerantParser -/

/-- JavaScript `String.prototype.trim`: drop leading and trailing
whitespace characters. -/
def jsTrim (cs : List Char) : List Char :=
  ((cs.dropWhile jsWhitespace).reverse.dropWhile jsWhitespace).reverse

/-- `text.split(/\r?\n/)`: split on `\n`, consuming an immediately
preceding `\r` together with it.  A lone `\r` does not split. -/
def splitLines : List Char → List (List Char)
  | [] => [[]]
  | '\r' :: '\n' :: rest => [] :: splitLines rest
  | '\n' :: rest => [] :: splitLines rest
  | c :: rest =>
    match splitLines rest with
    | l :: ls => (c :: l) :: ls
    | [] => [[c]]

/-- An external parser: `JSON5.parse` or `JSON.parse`, returning either
a value or an error message. -/
abbrev Parser := String → Except String Json

/-- One pass of the line-mode loop of `parseTolerant`: accumulate the
successfully parsed lines and remember the last failure message. -/
def lineStep (p5 : Parser) (acc : List Json × Option String) (l : List Char) :
    List Json × Option String :=
  match p5 (String.mk l) with
  | .ok v => (acc.1 ++ [v], acc.2)
  | .error e => (acc.1, some e)

/-- The non-blank trimmed lines used by line-delimited recovery. -/
def nbLines (text : String) : List (List Char) :=
  ((splitLines text.data).map jsTrim).filter (fun l => !l.isEmpty)

/-- `parseTolerant` of the source: JSON5, then JSON, then line-delimited
recovery with the lenient parser per line. -/
def parseTolerant (p5 pJ : Parser) (text : String) : Except String Json :=
  match p5 text with
  | .ok v => .ok v
  | .error e1 =>
    match pJ text with
    | .ok v => .ok v
    | .error _e2 =>
      let lines := nbLines text
      if 1 < lines.length then
        let step := lines.foldl (lineStep p5) ([], none)
        if !step.1.isEmpty then .ok (.arr step.1)
        else
          match step.2 with
          | some le =>
            .error ("Failed to parse as JSON or JSONL. Last line error: " ++ le)
          | none => .error e1
      else .error e1

/-! ## ArrayScorer -/

/-- The score of a candidate array, kept symbolically: the real value
is given by `Score.interp`.  `zero` is the score of an empty array,
`prim len` the score `1 + log10(len+1)` of a primitive array, and
`tab oc sc nk len` the score `(oc/sc)*70 + nk*5 + log10(len+1)*10` of
an object-shaped array. -/
inductive Score where
  | zero : Score
  | prim (len : Nat) : Score
  | tab (oc sc nk len : Nat) : Score
  deriving DecidableEq, Repr

/-- Real value of a score (JavaScript float arithmetic modelled as
exact real arithmetic). -/
noncomputable def Score.interp : Score → ℝ
  | .zero => 0
  | .prim len => 1 + Real.logb 10 (len + 1)
  | .tab oc sc nk len =>
    (oc : ℝ) / (sc : ℝ) * 70 + (nk : ℝ) * 5 + Real.logb 10 (len + 1) * 10

/-- Numerator of the rational part `(oc/sc)*70 + nk*5` of a tabular
score, over the denominator `tabDen sc`.  (Real division by zero is
zero, matching `Score.interp` when `sc = 0`; the scorer itself only
produces `1 ≤ sc`.) -/
def tabNum (oc sc nk : Nat) : Nat :=
  if sc = 0 then 5 * nk else 70 * oc + 5 * nk * sc

/-- Denominator of the rational part of a tabular score. -/
def tabDen (sc : Nat) : Nat := if sc = 0 then 1 else sc

/-- `score > 0` as the source computes it on the filter line. -/
def Score.isPos : Score → Bool
  | .zero => false
  | .prim _ => true
  | .tab oc sc nk len => !(decide (tabNum oc sc nk = 0) && decide (len = 0))

/-- Decide `p/s ≤ log10 (Y / X)` for naturals `1 ≤ s`, `1 ≤ X`,
`1 ≤ Y` by clearing the logarithm and the denominator:
`10^p * X^s ≤ Y^s`. -/
def cmpCore (p : Int) (s X Y : Nat) : Bool :=
  if 0 ≤ p then decide (10 ^ p.toNat * X ^ s ≤ Y ^ s)
  else decide (X ^ s ≤ 10 ^ (-p).toNat * Y ^ s)

/-- Executable comparison of two scores, agreeing with `≤` on
`Score.interp` (`Score.leB_iff`). -/
def Score.leB : Score → Score → Bool
  | .zero, .zero => true
  | .zero, .prim _ => true
  | .zero, .tab _ _ _ _ => true
  | .prim _, .zero => false
  | .prim a, .prim b => decide (a ≤ b)
  | .prim a, .tab oc sc nk len =>
    cmpCore ((tabDen sc : Int) - tabNum oc sc nk) (tabDen sc)
      (a + 1) ((len + 1) ^ 10)
  | .tab oc sc nk len, .zero =>
    decide (tabNum oc sc nk = 0) && decide (len = 0)
  | .tab oc sc nk len, .prim a =>
    cmpCore ((tabNum oc sc nk : Int) - tabDen sc) (tabDen sc)
      ((len + 1) ^ 10) (a + 1)
  | .tab o1 s1 k1 n1, .tab o2 s2 k2 n2 =>
    cmpCore ((tabNum o1 s1 k1 : Int) * tabDen s2 - (tabNum o2 s2 k2 : Int) * tabDen s1)
      (tabDen s1 * tabDen s2) ((n1 + 1) ^ 10) ((n2 + 1) ^ 10)

/-- Result of `scoreArray`: score, diagnostic reason, stable keys. -/
structure ScoreResult where
  score : Score
  reason : String
  keys : List String
  deriving Repr

/-- One `keyFreq.set(k, (keyFreq.get(k) ?? 0) + 1)` step on the
insertion-ordered map, modelled as an association list. -/
def bumpKey : List (String × Nat) → String → List (String × Nat)
  | [], k => [(k, 1)]
  | (k', n) :: rest, k =>
    if k' = k then (k', n + 1) :: rest else (k', n) :: bumpKey rest k

/-- The field-name occurrence stream of the sampled elements: keys of
each plain-object element, in element order. -/
def keyStream (sample : List Json) : List String :=
  sample.flatMap fun el =>
    match el with
    | .obj fs => fs.map Prod.fst
    | _ => []

/-- The `keyFreq` map after the sampling loop. -/
def keyFreq (sample : List Json) : List (String × Nat) :=
  (keyStream sample).foldl bumpKey []

/-- `Math.ceil(sampleCount * 0.4)` (see the header note on floats). -/
def stableThreshold (sampleCount : Nat) : Nat := (2 * sampleCount + 4) / 5

/-- `scoreArray` of the source. -/
def scoreArray (arr : List Json) : ScoreResult :=
  if arr.isEmpty then ⟨.zero, "empty", []⟩
  else
    let sampleCount := min arr.length 50
    let sample := arr.take sampleCount
    let objectCount := sample.countP Json.isPlainObject
    let freq := keyFreq sample
    if objectCount = 0 then
      ⟨.prim arr.length, "primitive-array", ["value"]⟩
    else
      let keys := (freq.filter fun kn => stableThreshold sampleCount ≤ kn.2).map Prod.fst
      let reason := "objects=" ++ toString objectCount ++ "/" ++ toString sampleCount ++
        ", keys=" ++ toString keys.length ++ ", len=" ++ toString arr.length
      ⟨.tab objectCount sampleCount keys.length arr.length, reason,
        if keys.isEmpty then freq.map Prod.fst else keys⟩

/-! ## ArrayDiscovery -/

/-- Index path segment, the template literal pattern of the source. -/
def pathSeg (i : Nat) : String := "[" ++ toString i ++ "]"

mutual

/-- `walkForArrays` of the source: depth-first pre-order enumeration of
every array in the document, each with its path; an array is yielded
before its elements are walked.  The generator's two inner loops are
the mutual helpers `walkElems` (array elements, in index order) and
`walkFields` (object fields, in insertion order). -/
def walkForArrays : Json → List String → List (List String × List Json)
  | .arr xs, path => (path, xs) :: walkElems 0 xs path
  | .obj fs, path => walkFields fs path
  | _, _ => []

def walkElems (i : Nat) : List Json → List String → List (List String × List Json)
  | [], _ => []
  | v :: xs, path => walkForArrays v (path ++ [pathSeg i]) ++ walkElems (i + 1) xs path

def walkFields : List (String × Json) → List String → List (List String × List Json)
  | [], _ => []
  | (k, v) :: fs, path => walkForArrays v (path ++ [k]) ++ walkFields fs path

end

/-! ## RowNormalizer -/

/-- A grid row: its cells (insertion-ordered, `none` modelling the
JavaScript `undefined`), its nested secondary rows, and the
secondary-row marker. -/
inductive GridRow where
  | mk (cells : List (String × Option Json)) (subRows : List GridRow)
      (isSubRow : Bool)

def GridRow.cells : GridRow → List (String × Option Json)
  | .mk c _ _ => c

def GridRow.subRows : GridRow → List GridRow
  | .mk _ s _ => s

def GridRow.isSubRow : GridRow → Bool
  | .mk _ _ b => b

/-- `Object.entries` as used by `generateSubRows`: fields of an object,
index-keyed elements of an array, nothing for primitives. -/
def Json.entries : Json → List (String × Json)
  | .obj fs => fs
  | .arr xs => xs.enum.map fun iv => (toString iv.1, iv.2)
  | _ => []

mutual

/-- `generateSubRows` of the source: one secondary row per entry
(`Object.entries`) of the nested value, recursing into structural entry
values.  The map over entries is unrolled into the mutual helpers
`genFields` (objects) and `genElems` (arrays, whose entry keys are the
decimal indices). -/
def generateSubRows : Json → List GridRow
  | .obj fs => genFields fs
  | .arr xs => genElems 0 xs
  | _ => []

def genFields : List (String × Json) → List GridRow
  | [] => []
  | (k, v) :: fs =>
    GridRow.mk [("key", some (.str k)), ("value", some (toCell v))]
        (if v.isStructural then generateSubRows v else []) true ::
      genFields fs

def genElems (i : Nat) : List Json → List GridRow
  | [] => []
  | v :: xs =>
    GridRow.mk [("key", some (.str (toString i))), ("value", some (toCell v))]
        (if v.isStructural then generateSubRows v else []) true ::
      genElems (i + 1) xs

end

/-- A cell value is "flat" when it is not a raw object or array. -/
def cellFlat : Option Json → Bool
  | some v => !v.isStructural
  | none => true

mutual

/-- Every cell of the row, and recursively of its secondary rows,
holds only flat (summarized or scalar) values. -/
def GridRow.flatCells : GridRow → Bool
  | .mk cells subs _ => cells.all (fun p => cellFlat p.2) && flatCellsList subs

def flatCellsList : List GridRow → Bool
  | [] => true
  | r :: rs => r.flatCells && flatCellsList rs

end

/-- First-seen-order deduplication (JavaScript `Set` iteration order),
with the already-seen keys accumulated in `seen`. -/
def firstSeenFrom (seen : List String) : List String → List String
  | [] => []
  | k :: rest =>
    if seen.contains k then firstSeenFrom seen rest
    else k :: firstSeenFrom (k :: seen) rest

/-- First-seen-order deduplication of a key list. -/
def firstSeen (l : List String) : List String := firstSeenFrom [] l

/-- The cell stored for key `k` of an object element: a summary for
structural values, the raw value for scalars, `undefined` for a
missing key. -/
def objCellValue (fs : List (String × Json)) (k : String) : Option Json :=
  match fs.lookup k with
  | some v => if v.isStructural then some (toCell v) else some v
  | none => none

/-- The structural fields of an object element, in column order; each
gets a secondary-row tree. -/
def objStructFields (fs : List (String × Json)) (allKeys : List String) :
    List (String × Json) :=
  allKeys.filterMap fun k =>
    match fs.lookup k with
    | some v => if v.isStructural then some (k, v) else none
    | none => none

/-- The row built for a plain-object element in object mode. -/
def normRowObj (keys : List String) (fs : List (String × Json)) : GridRow :=
  let allKeys := firstSeen (keys ++ fs.map Prod.fst)
  .mk (allKeys.map fun k => (k, objCellValue fs k))
    ((objStructFields fs allKeys).flatMap fun kv => generateSubRows (.obj [kv]))
    false

/-- The one-field row used in synthetic value mode and for degraded
non-object elements. -/
def valueRow (v : Json) : GridRow :=
  .mk [("value", some (toCell v))] [] false

/-- `normalizeRows` of the source. -/
def normalizeRows (arr : List Json) (keys : List String) : List GridRow :=
  if keys = ["value"] then arr.map valueRow
  else
    arr.map fun v =>
      match v with
      | .obj fs => normRowObj keys fs
      | _ => valueRow v

/-! ## ColumnInference -/

structure GridColumn where
  key : String
  type : ColType
  deriving DecidableEq, Repr

/-- Column key set: first-seen order over primary rows, with the
bookkeeping names removed. -/
def colKeys (rows : List GridRow) : List String :=
  (firstSeen
      ((rows.filter fun r => !r.isSubRow).flatMap fun r =>
        r.cells.map Prod.fst)).filter
    fun k => k ≠ "subRows" && k ≠ "isSubRow"

/-- The first defined (non-`undefined`) value of column `k`, scanning
rows in order. -/
def firstDefined (rows : List GridRow) (k : String) : Option Json :=
  rows.findSome? fun r => (r.cells.lookup k).join

/-- `buildColumns` of the source. -/
def buildColumns (rows : List GridRow) : List GridColumn :=
  (colKeys rows).map fun k =>
    ⟨k,
      match firstDefined rows k with
      | some v => inferType v
      | none => .undefined⟩

/-! ## PathFormatter and the engine -/

/-- `replace(/\.\[/g, '[')` on the joined path: scan left to right,
turning each `.[` into `[`. -/
def repDotBracket : List Char → List Char
  | [] => []
  | [c] => [c]
  | c1 :: c2 :: rest =>
    if c1 = '.' then
      if c2 = '[' then '[' :: repDotBracket rest
      else c1 :: repDotBracket (c2 :: rest)
    else c1 :: repDotBracket (c2 :: rest)

/-- `Array.prototype.join('.')` on the path segments. -/
def joinDot : List (List Char) → List Char
  | [] => []
  | [x] => x
  | x :: y :: xs => x ++ '.' :: joinDot (y :: xs)

/-- `path.join('.').replace(/\.\[/g, '[')`. -/
def fmtPath (segs : List String) : String :=
  String.mk (repDotBracket (joinDot (segs.map String.data)))

/-- A scored candidate, as pushed by the selection loop. -/
structure Cand where
  path : List String
  arr : List Json
  score : Score
  reason : String
  keys : List String

instance : Inhabited Cand := ⟨⟨[], [], .zero, "", []⟩⟩

def mkCand (pa : List String × List Json) : Cand :=
  let r := scoreArray pa.2
  ⟨pa.1, pa.2, r.score, r.reason, r.keys⟩

/-- The sort order used by `candidates.sort((a, b) => b.score - a.score)`:
`a` may stay before `b` iff `a`'s score is at least `b`'s. -/
def candLe (a b : Cand) : Prop := Score.leB b.score a.score = true

instance : DecidableRel candLe := fun _ _ =>
  inferInstanceAs (Decidable (_ = true))

/-- The earliest maximum-score candidate: fold over the remaining
candidates, replacing the current best only on strict improvement. -/
def pickBest : Cand → List Cand → Cand
  | b, [] => b
  | b, c :: rest => pickBest (if Score.leB c.score b.score then b else c) rest

structure DeriveResult where
  rows : List GridRow
  columns : List GridColumn
  path : String
  note : Option String

structure DerivationOutput where
  data : Option DeriveResult
  error : Option String

/-- Build the success result from the selected candidate. -/
def buildBest (best : Cand) : DeriveResult :=
  let rows := normalizeRows best.arr best.keys
  let pathStr := fmtPath best.path
  ⟨rows, buildColumns rows, pathStr,
    some ("Selected array at " ++ pathStr ++ "; " ++ best.reason)⟩

/-- The scored candidates that survive the `score > 0` filter, in
discovery order. -/
def keptCands (root : Json) : List Cand :=
  ((walkForArrays root ["$"]).map mkCand).filter fun c => c.score.isPos

/-- `deriveGridData` of the source. -/
def deriveGridData (p5 pJ : Parser) (text : String) : DerivationOutput :=
  if (jsTrim text.data).isEmpty then ⟨none, none⟩
  else
    match parseTolerant p5 pJ text with
    | .error e => ⟨none, some e⟩
    | .ok root =>
      let candidates := keptCands root
      if candidates.isEmpty then ⟨none, none⟩
      else
        match candidates.insertionSort candLe with
        | best :: _ => ⟨some (buildBest best), none⟩
        | [] => ⟨none, none⟩

/-- Reference scorer, transcribed from the specification's words
(§4.3): empty arrays score 0; sampling covers the first
min(length, 50) elements; with no plain object in the sample the
score is 1 + log10(length+1) with the synthetic key list ["value"];
otherwise a field is stable iff it occurs in at least
ceil(0.4 × sampleSize) of the sampled objects, stableKeys is the
stable fields in first-seen order (falling back to every observed
field), and the score is ratio×70 + stableKeyCount×5 +
log10(length+1)×10 — represented symbolically by the same `Score`
value. -/
def scoreArrayRef (arr : List Json) : Score × List String :=
  if arr.isEmpty then (.zero, [])
  else
    let sampleSize := min arr.length 50
    let sample := arr.take sampleSize
    let sampledObjs := sample.filter Json.isPlainObject
    if sampledObjs.length = 0 then (.prim arr.length, ["value"])
    else
      let observed := firstSeen (keyStream sample)
      let stable := observed.filter fun k =>
        Nat.ceil ((0.4 : ℚ) * sampleSize) ≤ (keyStream sample).count k
      (.tab sampledObjs.length sampleSize stable.length arr.length,
        if stable.isEmpty then observed else stable)


/-- Concrete lenient parser used to witness the line-recovery claim:
accepts exactly the three JSONL lines of the example. -/
def c8P5 : Parser := fun s =>
  if s = "\x7b\"a\":1\x7d" then .ok (.obj [("a", .num 1)])
  else if s = "\x7b\"a\":2\x7d" then .ok (.obj [("a", .num 2)])
  else if s = "\x7b\"a\":3\x7d" then .ok (.obj [("a", .num 3)])
  else .error "E5"

/-- Concrete strict parser that always fails. -/
def c8PJ : Parser := fun _ => .error "EJ"

/-- The claim's reading of the date pattern: `YYYY-MM-DD`, optionally
followed by `T` or a space (rather than the regex's `[T\s]` class),
`HH:MM:SS`, up to 3 fractional-second digits, and an optional `Z` or
`±HH:MM` offset. -/
def specDateMatch (cs : List Char) : Bool :=
  match takeDigits 4 cs with
  | some r1 =>
    match takeChar '-' r1 with
    | some r2 =>
      match takeDigits 2 r2 with
      | some r3 =>
        match takeChar '-' r3 with
        | some r4 =>
          match takeDigits 2 r4 with
          | some [] => true
          | some (c :: rest) =>
            if c = 'T' || c = ' ' then dateTime rest else false
          | none => false
        | none => false
      | none => false
    | none => false
  | none => false

/-- Concrete lenient parser for the nested-arrays counterexample. -/
def c5P5 : Parser := fun s =>
  if s = "[[1,2],[3]]" then .ok (.arr [.arr [.num 1, .num 2], .arr [.num 3]])
  else .error "E5"

/-- Concrete lenient parser for the two-record example. -/
def c7P5 : Parser := fun s =>
  if s = "[\x7b\"id\":1,\"name\":\"Alice\",\"active\":true\x7d,\x7b\"id\":2,\"name\":\"Bob\",\"active\":false\x7d]" then
    .ok (.arr [.obj [("id", .num 1), ("name", .str "Alice"), ("active", .bool true)],
      .obj [("id", .num 2), ("name", .str "Bob"), ("active", .bool false)]])
  else .error "E5"

/-- An index path segment: `[` followed by at least one digit and a
closing `]`. -/
def digitsClose : List Char → Bool
  | [] => false
  | [c] => c = ']'
  | c :: rest => isDigitChar c && digitsClose rest

/-- Recognize the index segments produced by the walk. -/
def isIdxSeg (s : String) : Bool :=
  match s.data with
  | c0 :: c1 :: rest => c0 = '[' && isDigitChar c1 && digitsClose rest
  | _ => false

/-- A field segment is "safe" for the dotted rendering when it contains
neither `.` nor `[`. -/
def isFieldSeg (s : String) : Bool :=
  s.data.all fun c => !(c = '.') && !(c = '[')

/-- Direct rendering of one segment in the formatted path: index
segments appear bare, field segments with a leading dot. -/
def rseg (s : String) : List Char :=
  if isIdxSeg s then s.data else '.' :: s.data

/-- Parse the formatted path back into its segments (fuel-indexed; one
unit of fuel per segment suffices since each segment consumes at least
one character). -/
def pbSegs : Nat → List Char → Option (List String)
  | _, [] => some []
  | 0, _ :: _ => none
  | fuel + 1, '.' :: rest =>
    (pbSegs fuel (rest.dropWhile fun c => !(c = '.') && !(c = '['))).map
      (String.mk (rest.takeWhile fun c => !(c = '.') && !(c = '[')) :: ·)
  | fuel + 1, '[' :: rest =>
    match rest.dropWhile (fun c => !(c = ']')) with
    | ']' :: rest' =>
      (pbSegs fuel rest').map
        (String.mk ('[' :: (rest.takeWhile fun c => !(c = ']')) ++ [']']) :: ·)
    | _ => none
  | _ + 1, _ :: _ => none

/-- Map a formatted path string back to its object-key / array-index
segment chain. -/
def pathBack (s : String) : Option (List String) :=
  match s.data with
  | '$' :: rest => (pbSegs (rest.length + 1) rest).map (("$" : String) :: ·)
  | _ => none

/-- Concrete lenient parser for a document whose single key contains a
dot. -/
def c4PA : Parser := fun s =>
  if s = "\x7b\"a.b\":[1]\x7d" then .ok (.obj [("a.b", .arr [.num 1])]) else .error "E4"

/-- Concrete lenient parser for a document with the nested keys `a`,
`b`. -/
def c4PB : Parser := fun s =>
  if s = "\x7b\"a\":\x7b\"b\":[1]\x7d\x7d" then .ok (.obj [("a", .obj [("b", .arr [.num 1])])])
  else .error "E4"

/-- Concrete lenient parser for the two-candidate selection example. -/
def c2P5 : Parser := fun s =>
  if s = "[[1],2]" then .ok (.arr [.arr [.num 1], .num 2]) else .error "E2"

/-! ## Theorems: score interpretation, ordering, and selection -/

/-! ## Score interpretation -/

theorem one_lt_ten : (1 : ℝ) < 10 := by norm_num

theorem cmpCore_iff {p : Int} {s X Y : Nat} (hs : 1 ≤ s) (hX : 1 ≤ X) (hY : 1 ≤ Y) :
    cmpCore p s X Y = true ↔ (p : ℝ) / (s : ℝ) ≤ Real.logb 10 ((Y : ℝ) / (X : ℝ)) := by
  have hXR : (0 : ℝ) < X := by exact_mod_cast hX
  have hYR : (0 : ℝ) < Y := by exact_mod_cast hY
  have hsR : (0 : ℝ) < s := by exact_mod_cast hs
  have hsne : s ≠ 0 := by omega
  have h1 : ((p : ℝ) / s ≤ Real.logb 10 ((Y : ℝ) / X)) ↔
      (10 : ℝ) ^ ((p : ℝ) / s) ≤ (Y : ℝ) / X :=
    Real.le_logb_iff_rpow_le one_lt_ten (div_pos hYR hXR)
  have h2 : ((10 : ℝ) ^ ((p : ℝ) / s) ≤ (Y : ℝ) / X) ↔
      ((10 : ℝ) ^ ((p : ℝ) / s)) ^ s ≤ ((Y : ℝ) / X) ^ s :=
    (pow_le_pow_iff_left₀ (Real.rpow_nonneg (by norm_num) _)
      (le_of_lt (div_pos hYR hXR)) hsne).symm
  have h3 : ((10 : ℝ) ^ ((p : ℝ) / s)) ^ s = (10 : ℝ) ^ (p : ℝ) := by
    rw [← Real.rpow_natCast ((10 : ℝ) ^ ((p : ℝ) / s)) s,
      ← Real.rpow_mul (by norm_num), div_mul_cancel₀]
    exact ne_of_gt hsR
  have h4 : ((10 : ℝ) ^ (p : ℝ) ≤ ((Y : ℝ) / X) ^ s) ↔
      (10 : ℝ) ^ (p : ℝ) * (X : ℝ) ^ s ≤ (Y : ℝ) ^ s := by
    rw [div_pow, le_div_iff₀ (pow_pos hXR s)]
  rw [h1, h2, h3, h4]
  unfold cmpCore
  by_cases hp : 0 ≤ p
  · rw [if_pos hp, decide_eq_true_eq]
    have hpn : ((p.toNat : ℕ) : ℝ) = (p : ℝ) := by
      exact_mod_cast Int.toNat_of_nonneg hp
    have e1 : (10 : ℝ) ^ (p : ℝ) * (X : ℝ) ^ s = ((10 ^ p.toNat * X ^ s : ℕ) : ℝ) := by
      rw [← hpn, Real.rpow_natCast]; push_cast; ring
    have e2 : (Y : ℝ) ^ s = ((Y ^ s : ℕ) : ℝ) := by push_cast; ring
    rw [e1, e2, Nat.cast_le]
  · rw [if_neg hp, decide_eq_true_eq]
    have hm : (((-p).toNat : ℕ) : ℝ) = -(p : ℝ) := by
      have h' : ((-p).toNat : ℤ) = -p := Int.toNat_of_nonneg (by omega)
      exact_mod_cast h'
    have h9 : (10 : ℝ) ^ (p : ℝ) = ((10 : ℝ) ^ ((-p).toNat : ℕ))⁻¹ := by
      rw [← Real.rpow_natCast (10 : ℝ) (-p).toNat, ← Real.rpow_neg (by norm_num)]
      congr 1
      rw [hm]; ring
    rw [h9, inv_mul_le_iff₀ (by positivity)]
    have e1 : (X : ℝ) ^ s = ((X ^ s : ℕ) : ℝ) := by push_cast; ring
    have e2 : (10 : ℝ) ^ ((-p).toNat : ℕ) * (Y : ℝ) ^ s =
        ((10 ^ (-p).toNat * Y ^ s : ℕ) : ℝ) := by push_cast; ring
    rw [e1, e2, Nat.cast_le]

theorem tabDen_pos (sc : Nat) : 1 ≤ tabDen sc := by
  unfold tabDen; split <;> omega

theorem pow10_pos (n : Nat) : 1 ≤ (n + 1) ^ 10 :=
  Nat.one_le_pow _ _ (by omega)

theorem tab_interp (oc sc nk len : Nat) :
    (Score.tab oc sc nk len).interp =
      (tabNum oc sc nk : ℝ) / (tabDen sc : ℝ) + Real.logb 10 (len + 1) * 10 := by
  unfold Score.interp tabNum tabDen
  by_cases h : sc = 0
  · subst h
    simp only [if_pos rfl, Nat.cast_zero, div_zero, zero_mul]
    push_cast
    ring
  · have hsc : (0:ℝ) < sc := by
      have : 0 < sc := Nat.pos_of_ne_zero h
      exact_mod_cast this
    rw [if_neg h, if_neg h]
    field_simp
    ring

theorem logb_nat_pos {n : Nat} (h : 2 ≤ n) : 0 < Real.logb 10 (n : ℝ) := by
  apply Real.logb_pos one_lt_ten
  exact_mod_cast h

theorem logb_succ_nonneg (n : Nat) : 0 ≤ Real.logb 10 ((n : ℝ) + 1) := by
  apply Real.logb_nonneg one_lt_ten
  have : (1:ℝ) ≤ ((n + 1 : ℕ) : ℝ) := by exact_mod_cast Nat.succ_le_succ (Nat.zero_le n)
  push_cast at this
  linarith

theorem prim_interp_pos (len : Nat) : 0 < (Score.prim len).interp := by
  unfold Score.interp
  have := logb_succ_nonneg len
  linarith

theorem tab_interp_nonneg (oc sc nk len : Nat) : 0 ≤ (Score.tab oc sc nk len).interp := by
  rw [tab_interp]
  have h1 : (0:ℝ) ≤ (tabNum oc sc nk : ℝ) / (tabDen sc : ℝ) := by positivity
  have h2 := logb_succ_nonneg len
  linarith

theorem interp_nonneg (s : Score) : 0 ≤ s.interp := by
  cases s with
  | zero => simp [Score.interp]
  | prim len => exact le_of_lt (prim_interp_pos len)
  | tab oc sc nk len => exact tab_interp_nonneg ..

theorem tab_interp_eq_zero_iff (oc sc nk len : Nat) :
    (Score.tab oc sc nk len).interp ≤ 0 ↔ tabNum oc sc nk = 0 ∧ len = 0 := by
  rw [tab_interp]
  have hD : (0:ℝ) < (tabDen sc : ℝ) := by
    have := tabDen_pos sc; exact_mod_cast Nat.lt_of_lt_of_le Nat.zero_lt_one this
  have hL := logb_succ_nonneg len
  have hN : (0:ℝ) ≤ (tabNum oc sc nk : ℝ) / (tabDen sc : ℝ) := by positivity
  constructor
  · intro h
    have hNz : (tabNum oc sc nk : ℝ) / (tabDen sc : ℝ) = 0 := by linarith
    have hLz : Real.logb 10 ((len : ℝ) + 1) = 0 := by linarith
    constructor
    · field_simp at hNz
      exact_mod_cast hNz
    · by_contra hne
      have h2 : 2 ≤ len + 1 := by omega
      have := logb_nat_pos (n := len + 1) h2
      push_cast at this
      linarith
  · rintro ⟨h1, h2⟩
    subst h2
    rw [h1]
    norm_num

theorem logb_pow10_cast (n : Nat) :
    Real.logb 10 (((n + 1) ^ 10 : ℕ) : ℝ) = Real.logb 10 ((n : ℝ) + 1) * 10 := by
  push_cast
  rw [Real.logb_pow]
  ring

theorem Score.leB_iff (s t : Score) : Score.leB s t = true ↔ s.interp ≤ t.interp := by
  have hD : ∀ sc : Nat, (0:ℝ) < (tabDen sc : ℝ) := fun sc => by
    have := tabDen_pos sc
    exact_mod_cast Nat.lt_of_lt_of_le Nat.zero_lt_one this
  cases s with
  | zero =>
    cases t with
    | zero => simp [Score.leB, Score.interp]
    | prim len =>
      simp only [Score.leB, true_iff, show (Score.zero).interp = 0 from rfl]
      exact le_of_lt (prim_interp_pos len)
    | tab oc sc nk len => simp [Score.leB, show (Score.zero).interp = 0 from rfl,
        tab_interp_nonneg oc sc nk len]
  | prim a =>
    cases t with
    | zero =>
      simp only [Score.leB, Bool.false_eq_true, false_iff, not_le]
      have := prim_interp_pos a
      simp only [show (Score.zero).interp = 0 from rfl]
      linarith
    | prim b =>
      simp only [Score.leB, decide_eq_true_eq, Score.interp]
      have h1 : (0:ℝ) < (a:ℝ) + 1 := by positivity
      have h2 : (0:ℝ) < (b:ℝ) + 1 := by positivity
      rw [add_le_add_iff_left, Real.logb_le_logb one_lt_ten h1 h2]
      constructor
      · intro h
        have : (a:ℝ) ≤ (b:ℝ) := by exact_mod_cast h
        linarith
      · intro h
        have : (a:ℝ) ≤ (b:ℝ) := by linarith
        exact_mod_cast this
    | tab oc sc nk len =>
      simp only [Score.leB]
      rw [cmpCore_iff (tabDen_pos sc) (by omega) (pow10_pos len)]
      have hlog : Real.logb 10 ((((len + 1) ^ 10 : ℕ) : ℝ) / (((a + 1 : ℕ)) : ℝ)) =
          Real.logb 10 ((len : ℝ) + 1) * 10 - Real.logb 10 ((a : ℝ) + 1) := by
        rw [Real.logb_div (by positivity) (by positivity), logb_pow10_cast]
        have : (((a + 1 : ℕ)) : ℝ) = (a : ℝ) + 1 := by push_cast; ring
        rw [this]
      have hq : (((tabDen sc : ℤ) - (tabNum oc sc nk : ℤ) : ℤ) : ℝ) / (tabDen sc : ℝ) =
          1 - (tabNum oc sc nk : ℝ) / (tabDen sc : ℝ) := by
        have hne : (tabDen sc : ℝ) ≠ 0 := ne_of_gt (hD sc)
        push_cast
        field_simp
      rw [hlog, hq, tab_interp, show (Score.prim a).interp = 1 + Real.logb 10 ((a:ℝ) + 1) from rfl]
      constructor <;> intro h <;> linarith
  | tab oc sc nk len =>
    cases t with
    | zero =>
      simp only [Score.leB, Bool.and_eq_true, decide_eq_true_eq,
        show (Score.zero).interp = 0 from rfl]
      exact (tab_interp_eq_zero_iff oc sc nk len).symm
    | prim b =>
      simp only [Score.leB]
      rw [cmpCore_iff (tabDen_pos sc) (pow10_pos len) (by omega)]
      have hlog : Real.logb 10 ((((b + 1 : ℕ)) : ℝ) / (((len + 1) ^ 10 : ℕ) : ℝ)) =
          Real.logb 10 ((b : ℝ) + 1) - Real.logb 10 ((len : ℝ) + 1) * 10 := by
        rw [Real.logb_div (by positivity) (by positivity), logb_pow10_cast]
        have : (((b + 1 : ℕ)) : ℝ) = (b : ℝ) + 1 := by push_cast; ring
        rw [this]
      have hq : (((tabNum oc sc nk : ℤ) - (tabDen sc : ℤ) : ℤ) : ℝ) / (tabDen sc : ℝ) =
          (tabNum oc sc nk : ℝ) / (tabDen sc : ℝ) - 1 := by
        have hne : (tabDen sc : ℝ) ≠ 0 := ne_of_gt (hD sc)
        push_cast
        field_simp
      rw [hlog, hq, tab_interp, show (Score.prim b).interp = 1 + Real.logb 10 ((b:ℝ) + 1) from rfl]
      constructor <;> intro h <;> linarith
    | tab o2 s2 k2 n2 =>
      simp only [Score.leB]
      have hs12 : 1 ≤ tabDen sc * tabDen s2 :=
        Nat.one_le_iff_ne_zero.2 (Nat.mul_ne_zero (by have := tabDen_pos sc; omega)
          (by have := tabDen_pos s2; omega))
      rw [cmpCore_iff hs12 (pow10_pos len) (pow10_pos n2)]
      have hlog : Real.logb 10 ((((n2 + 1) ^ 10 : ℕ) : ℝ) / (((len + 1) ^ 10 : ℕ) : ℝ)) =
          Real.logb 10 ((n2 : ℝ) + 1) * 10 - Real.logb 10 ((len : ℝ) + 1) * 10 := by
        rw [Real.logb_div (by positivity) (by positivity), logb_pow10_cast, logb_pow10_cast]
      have hq : (((tabNum oc sc nk : ℤ) * (tabDen s2 : ℤ) -
            (tabNum o2 s2 k2 : ℤ) * (tabDen sc : ℤ) : ℤ) : ℝ) /
            ((tabDen sc * tabDen s2 : ℕ) : ℝ) =
          (tabNum oc sc nk : ℝ) / (tabDen sc : ℝ) -
            (tabNum o2 s2 k2 : ℝ) / (tabDen s2 : ℝ) := by
        have h1 : (tabDen sc : ℝ) ≠ 0 := ne_of_gt (hD sc)
        have h2 : (tabDen s2 : ℝ) ≠ 0 := ne_of_gt (hD s2)
        push_cast
        field_simp
        ring
      rw [hq, hlog, tab_interp, tab_interp]
      constructor <;> intro h <;> linarith

theorem Score.isPos_iff (s : Score) : s.isPos = true ↔ 0 < s.interp := by
  cases s with
  | zero =>
    simp only [Score.isPos, Bool.false_eq_true, false_iff, not_lt,
      show (Score.zero).interp = 0 from rfl, le_refl]
  | prim len =>
    simp only [Score.isPos, true_iff]
    exact prim_interp_pos len
  | tab oc sc nk len =>
    have h0 := tab_interp_nonneg oc sc nk len
    have hz := tab_interp_eq_zero_iff oc sc nk len
    simp only [Score.isPos, Bool.not_eq_true', Bool.and_eq_false_iff,
      decide_eq_false_iff_not]
    constructor
    · intro h
      rcases lt_or_eq_of_le h0 with hlt | heq
      · exact hlt
      · exfalso
        rcases hz.1 (le_of_eq heq.symm) with ⟨h1, h2⟩
        rcases h with h | h
        · exact h h1
        · exact h h2
    · intro h
      by_contra hc
      push_neg at hc
      rcases hc with ⟨h1, h2⟩
      have := hz.2 ⟨h1, h2⟩
      linarith

theorem Score.isPos_iff_ne (s : Score) : s.isPos = true ↔ s.interp ≠ 0 := by
  rw [Score.isPos_iff]
  have := interp_nonneg s
  constructor
  · intro h; linarith
  · intro h; rcases lt_or_eq_of_le this with h' | h'
    · exact h'
    · exact absurd h'.symm h

theorem candLe_total : ∀ a b : Cand, candLe a b ∨ candLe b a := by
  intro a b
  unfold candLe
  rw [Score.leB_iff, Score.leB_iff]
  exact (le_total b.score.interp a.score.interp)

theorem candLe_trans : ∀ a b c : Cand, candLe a b → candLe b c → candLe a c := by
  intro a b c hab hbc
  unfold candLe at *
  rw [Score.leB_iff] at *
  exact le_trans hbc hab

instance : IsTotal Cand candLe := ⟨candLe_total⟩

instance : IsTrans Cand candLe := ⟨candLe_trans⟩

theorem candLe_iff {a b : Cand} : candLe a b ↔ b.score.interp ≤ a.score.interp := by
  unfold candLe
  exact Score.leB_iff b.score a.score

theorem leB_real {s t : Score} (h : Score.leB s t = true) : s.interp ≤ t.interp :=
  (Score.leB_iff s t).1 h

theorem leB_real_not {s t : Score} (h : ¬ Score.leB s t = true) : t.interp < s.interp := by
  rcases le_or_lt s.interp t.interp with h' | h'
  · exact absurd ((Score.leB_iff s t).2 h') h
  · exact h'

theorem pickBest_cons (c d : Cand) (l : List Cand) :
    pickBest c (d :: l) =
      if candLe c (pickBest d l) then c else pickBest d l := by
  induction l generalizing c d with
  | nil =>
    show (if Score.leB d.score c.score then c else d) = if candLe c d then c else d
    by_cases h : Score.leB d.score c.score
    · rw [if_pos h, if_pos (show candLe c d from h)]
    · rw [if_neg h, if_neg (show ¬ candLe c d from h)]
  | cons e l ih =>
    show pickBest (if Score.leB d.score c.score then c else d) (e :: l) = _
    rw [ih (if Score.leB d.score c.score then c else d) e, ih d e]
    by_cases h1 : Score.leB d.score c.score
    · simp only [if_pos h1]
      have hdc : d.score.interp ≤ c.score.interp := leB_real h1
      by_cases h2 : candLe d (pickBest e l)
      · have h2' : (pickBest e l).score.interp ≤ d.score.interp := candLe_iff.1 h2
        have h3 : candLe c (pickBest e l) := candLe_iff.2 (le_trans h2' hdc)
        have h4 : candLe c d := candLe_iff.2 hdc
        simp only [if_pos h2, if_pos h3, if_pos h4]
      · simp only [if_neg h2]
    · simp only [if_neg h1]
      have hcd : c.score.interp < d.score.interp := leB_real_not h1
      by_cases h2 : candLe d (pickBest e l)
      · have h4 : ¬ candLe c d := fun hc => absurd (candLe_iff.1 hc) (not_le.2 hcd)
        simp only [if_pos h2, if_neg h4]
      · have h2' : d.score.interp < (pickBest e l).score.interp :=
          lt_of_not_le (fun hle => h2 (candLe_iff.2 hle))
        have h4 : ¬ candLe c (pickBest e l) := fun hc => by
          have := candLe_iff.1 hc
          linarith
        simp only [if_neg h2, if_neg h4]

theorem head?_orderedInsert (a : Cand) (s : List Cand) :
    (List.orderedInsert candLe a s).head? =
      some (match s.head? with
        | none => a
        | some x => if candLe a x then a else x) := by
  cases s with
  | nil => rfl
  | cons x s' =>
    show (if candLe a x then a :: x :: s' else x :: List.orderedInsert candLe a s').head? = _
    by_cases h : candLe a x
    · rw [if_pos h]; simp [h]
    · rw [if_neg h]; simp [h]

theorem head?_insertionSort (l : List Cand) :
    (List.insertionSort candLe l).head? =
      match l with
      | [] => none
      | c :: rest => some (pickBest c rest) := by
  induction l with
  | nil => rfl
  | cons c l ih =>
    show (List.orderedInsert candLe c (List.insertionSort candLe l)).head? = _
    rw [head?_orderedInsert]
    cases l with
    | nil => rfl
    | cons d rest =>
      rw [ih]
      show some (if candLe c (pickBest d rest) then c else pickBest d rest) =
        some (pickBest c (d :: rest))
      rw [pickBest_cons]

theorem pickBest_spec (l : List Cand) (b : Cand) :
    (∀ x ∈ b :: l, x.score.interp ≤ (pickBest b l).score.interp) ∧
      ∃ pre post, b :: l = pre ++ pickBest b l :: post ∧
        ∀ x ∈ pre, x.score.interp < (pickBest b l).score.interp := by
  induction l generalizing b with
  | nil =>
    constructor
    · intro x hx
      rw [List.mem_singleton] at hx
      subst hx
      exact le_refl _
    · exact ⟨[], [], rfl, by simp⟩
  | cons c rest ih =>
    set b' : Cand := if Score.leB c.score b.score then b else c with hbd
    have hpbeq : pickBest b (c :: rest) = pickBest b' rest := rfl
    obtain ⟨hmax, pre', post', hsplit, hpre⟩ := ih b'
    have hb'b : b.score.interp ≤ b'.score.interp := by
      rw [hbd]
      by_cases h : Score.leB c.score b.score
      · rw [if_pos h]
      · rw [if_neg h]
        exact le_of_lt (leB_real_not h)
    have hb'c : c.score.interp ≤ b'.score.interp := by
      rw [hbd]
      by_cases h : Score.leB c.score b.score
      · rw [if_pos h]
        exact leB_real h
      · rw [if_neg h]
    have hpb : b'.score.interp ≤ (pickBest b' rest).score.interp :=
      hmax _ (List.mem_cons_self ..)
    rw [hpbeq]
    constructor
    · intro x hx
      rcases List.mem_cons.1 hx with rfl | hx
      · exact le_trans hb'b hpb
      rcases List.mem_cons.1 hx with rfl | hx
      · exact le_trans hb'c hpb
      · exact hmax x (List.mem_cons_of_mem _ hx)
    · cases pre' with
      | nil =>
        have hhd : b' = pickBest b' rest := ((List.cons.injEq ..).mp hsplit).1
        by_cases h : Score.leB c.score b.score
        · refine ⟨[], c :: rest, ?_, by simp⟩
          simp only [List.nil_append]
          rw [← hhd, hbd, if_pos h]
        · refine ⟨[b], rest, ?_, ?_⟩
          · simp only [List.cons_append, List.nil_append]
            rw [← hhd, hbd, if_neg h]
          · intro x hx
            rw [List.mem_singleton] at hx
            subst hx
            have h1 : x.score.interp < c.score.interp := leB_real_not h
            have h2 : c.score.interp = b'.score.interp := by
              rw [hbd, if_neg h]
            rw [← hhd, ← h2]
            exact h1
      | cons p pre'' =>
        have h1 := (List.cons.injEq ..).mp hsplit
        have hp : p = b' := h1.1.symm
        have hrest : rest = pre'' ++ pickBest b' rest :: post' := by
          simpa using h1.2
        have hb'lt : b'.score.interp < (pickBest b' rest).score.interp := by
          apply hpre
          rw [hp]
          exact List.mem_cons_self ..
        refine ⟨b :: c :: pre'', post', ?_, ?_⟩
        · simp only [List.cons_append]
          rw [← hrest]
        · intro x hx
          rcases List.mem_cons.1 hx with rfl | hx
          · exact lt_of_le_of_lt hb'b hb'lt
          rcases List.mem_cons.1 hx with rfl | hx
          · exact lt_of_le_of_lt hb'c hb'lt
          · exact hpre x (List.mem_cons_of_mem _ hx)

theorem sublist_orderedInsert (a : Cand) :
    ∀ s : List Cand, List.Sublist s (List.orderedInsert candLe a s) := by
  intro s
  induction s with
  | nil => exact List.nil_sublist _
  | cons x s' ih =>
    show List.Sublist (x :: s')
      (if candLe a x then a :: x :: s' else x :: List.orderedInsert candLe a s')
    by_cases h : candLe a x
    · rw [if_pos h]
      exact List.sublist_cons_self ..
    · rw [if_neg h]
      exact List.Sublist.cons₂ x ih

theorem pair_sublist_orderedInsert {a b : Cand}
    (hab : b.score.interp ≤ a.score.interp) :
    ∀ s : List Cand, b ∈ s → List.Sublist [a, b] (List.orderedInsert candLe a s) := by
  intro s
  induction s with
  | nil => intro h; cases h
  | cons x s' ih =>
    intro hb
    show List.Sublist [a, b]
      (if candLe a x then a :: x :: s' else x :: List.orderedInsert candLe a s')
    by_cases h : candLe a x
    · rw [if_pos h]
      exact List.Sublist.cons₂ a (List.singleton_sublist.2 hb)
    · rw [if_neg h]
      rcases List.mem_cons.1 hb with heq | hb'
      · exfalso
        subst heq
        have := leB_real_not h
        linarith
      · exact List.Sublist.cons x (ih hb')

theorem insertionSort_stable_pair {a b : Cand}
    (heq : a.score.interp = b.score.interp) :
    ∀ l : List Cand, List.Sublist [a, b] l → List.Sublist [a, b] (List.insertionSort candLe l) := by
  intro l
  induction l with
  | nil => intro h; simp at h
  | cons c l ih =>
    intro h
    show List.Sublist [a, b] (List.orderedInsert candLe c (List.insertionSort candLe l))
    cases h with
    | cons _ h' =>
      exact (ih h').trans (sublist_orderedInsert c _)
    | cons₂ _ h' =>
      have hb : b ∈ List.insertionSort candLe l :=
        ((List.perm_insertionSort candLe l).mem_iff).2 (List.singleton_sublist.1 h')
      exact pair_sublist_orderedInsert (le_of_eq heq.symm) _ hb

theorem engine_sorted_desc (l : List Cand) :
    (List.insertionSort candLe l).Pairwise
      (fun a b => b.score.interp ≤ a.score.interp) := by
  have h := List.sorted_insertionSort candLe l
  exact List.Pairwise.imp (fun hab => candLe_iff.1 hab) h

/-! ## firstSeen and keyFreq normal form -/

theorem mem_firstSeenFrom (x : String) :
    ∀ (ks seen : List String), x ∈ firstSeenFrom seen ks ↔ x ∈ ks ∧ x ∉ seen := by
  intro ks
  induction ks with
  | nil => intro seen; simp [firstSeenFrom]
  | cons k rest ih =>
    intro seen
    show x ∈ (if seen.contains k then firstSeenFrom seen rest
        else k :: firstSeenFrom (k :: seen) rest) ↔ _
    by_cases h : seen.contains k
    · rw [if_pos h]
      rw [ih]
      have hk : k ∈ seen := List.elem_iff.1 h
      simp only [List.mem_cons]
      constructor
      · rintro ⟨h1, h2⟩
        exact ⟨Or.inr h1, h2⟩
      · rintro ⟨h1 | h1, h2⟩
        · subst h1; exact absurd hk h2
        · exact ⟨h1, h2⟩
    · rw [if_neg h]
      have hk : k ∉ seen := fun hc => h (List.elem_iff.2 hc)
      simp only [List.mem_cons, ih, List.mem_cons]
      constructor
      · rintro (rfl | ⟨h1, h2⟩)
        · exact ⟨Or.inl rfl, hk⟩
        · refine ⟨Or.inr h1, fun hc => h2 (Or.inr hc)⟩
      · rintro ⟨rfl | h1, h2⟩
        · exact Or.inl rfl
        · by_cases hxk : x = k
          · exact Or.inl hxk
          · exact Or.inr ⟨h1, fun hc => (by
              rcases hc with hc | hc
              · exact hxk hc
              · exact h2 hc)⟩

theorem nodup_firstSeenFrom :
    ∀ (ks seen : List String), (firstSeenFrom seen ks).Nodup := by
  intro ks
  induction ks with
  | nil => intro seen; simp [firstSeenFrom]
  | cons k rest ih =>
    intro seen
    show (if seen.contains k then firstSeenFrom seen rest
        else k :: firstSeenFrom (k :: seen) rest).Nodup
    by_cases h : seen.contains k
    · rw [if_pos h]; exact ih seen
    · rw [if_neg h]
      rw [List.nodup_cons]
      constructor
      · intro hc
        rcases (mem_firstSeenFrom k rest (k :: seen)).1 hc with ⟨_, h2⟩
        exact h2 (List.mem_cons_self ..)
      · exact ih (k :: seen)

theorem firstSeenFrom_append_one (k : String) :
    ∀ (pre seen : List String),
      firstSeenFrom seen (pre ++ [k]) =
        if k ∈ seen ∨ k ∈ pre then firstSeenFrom seen pre
        else firstSeenFrom seen pre ++ [k] := by
  intro pre
  induction pre with
  | nil =>
    intro seen
    show (if seen.contains k then ([] : List String)
        else k :: firstSeenFrom (k :: seen) []) = _
    by_cases h : seen.contains k
    · rw [if_pos h, if_pos (Or.inl (List.elem_iff.1 h))]
      rfl
    · rw [if_neg h, if_neg (by
        rintro (hc | hc)
        · exact h (List.elem_iff.2 hc)
        · cases hc)]
      rfl
  | cons a rest ih =>
    intro seen
    show (if seen.contains a then firstSeenFrom seen (rest ++ [k])
        else a :: firstSeenFrom (a :: seen) (rest ++ [k])) = _
    by_cases h : seen.contains a
    · rw [if_pos h, ih seen]
      have ha : a ∈ seen := List.elem_iff.1 h
      have hcond : (k ∈ seen ∨ k ∈ rest) ↔ (k ∈ seen ∨ k ∈ a :: rest) := by
        simp only [List.mem_cons]
        constructor
        · rintro (h1 | h1)
          · exact Or.inl h1
          · exact Or.inr (Or.inr h1)
        · rintro (h1 | rfl | h1)
          · exact Or.inl h1
          · exact Or.inl ha
          · exact Or.inr h1
      by_cases hc : k ∈ seen ∨ k ∈ rest
      · rw [if_pos hc, if_pos (hcond.1 hc)]
        show firstSeenFrom seen rest = firstSeenFrom seen (a :: rest)
        show firstSeenFrom seen rest =
          (if seen.contains a then firstSeenFrom seen rest
            else a :: firstSeenFrom (a :: seen) rest)
        rw [if_pos h]
      · rw [if_neg hc, if_neg (fun hcc => hc (hcond.2 hcc))]
        show firstSeenFrom seen rest ++ [k] = firstSeenFrom seen (a :: rest) ++ [k]
        congr 1
        show firstSeenFrom seen rest =
          (if seen.contains a then firstSeenFrom seen rest
            else a :: firstSeenFrom (a :: seen) rest)
        rw [if_pos h]
    · rw [if_neg h, ih (a :: seen)]
      have hcond : (k ∈ a :: seen ∨ k ∈ rest) ↔ (k ∈ seen ∨ k ∈ a :: rest) := by
        simp only [List.mem_cons]
        constructor
        · rintro ((rfl | h1) | h1)
          · exact Or.inr (Or.inl rfl)
          · exact Or.inl h1
          · exact Or.inr (Or.inr h1)
        · rintro (h1 | rfl | h1)
          · exact Or.inl (Or.inr h1)
          · exact Or.inl (Or.inl rfl)
          · exact Or.inr h1
      by_cases hc : k ∈ a :: seen ∨ k ∈ rest
      · rw [if_pos hc, if_pos (hcond.1 hc)]
        show a :: firstSeenFrom (a :: seen) rest = firstSeenFrom seen (a :: rest)
        show a :: firstSeenFrom (a :: seen) rest =
          (if seen.contains a then firstSeenFrom seen rest
            else a :: firstSeenFrom (a :: seen) rest)
        rw [if_neg h]
      · rw [if_neg hc, if_neg (fun hcc => hc (hcond.2 hcc))]
        show a :: firstSeenFrom (a :: seen) rest ++ [k] =
          firstSeenFrom seen (a :: rest) ++ [k]
        congr 1
        show a :: firstSeenFrom (a :: seen) rest =
          (if seen.contains a then firstSeenFrom seen rest
            else a :: firstSeenFrom (a :: seen) rest)
        rw [if_neg h]

theorem bumpKey_not_mem :
    ∀ (m : List (String × Nat)) (k : String), k ∉ m.map Prod.fst →
      bumpKey m k = m ++ [(k, 1)] := by
  intro m
  induction m with
  | nil => intro k _; rfl
  | cons p rest ih =>
    intro k hk
    show (if p.1 = k then (p.1, p.2 + 1) :: rest else (p.1, p.2) :: bumpKey rest k) = _
    have hne : p.1 ≠ k := by
      intro he
      exact hk (by rw [← he]; exact List.mem_cons_self ..)
    rw [if_neg hne, ih k (fun hc => hk (List.mem_cons_of_mem _ hc))]
    rfl

theorem bumpKey_mem (f : String → Nat) :
    ∀ (l : List String) (k : String), l.Nodup → k ∈ l →
      bumpKey (l.map fun k' => (k', f k')) k =
        l.map fun k' => (k', if k' = k then f k' + 1 else f k') := by
  intro l
  induction l with
  | nil => intro k _ hk; cases hk
  | cons a rest ih =>
    intro k hnd hk
    rw [List.nodup_cons] at hnd
    show (if a = k then (a, f a + 1) :: rest.map (fun k' => (k', f k'))
        else (a, f a) :: bumpKey (rest.map fun k' => (k', f k')) k) = _
    by_cases hak : a = k
    · rw [if_pos hak]
      subst hak
      show (a, f a + 1) :: rest.map (fun k' => (k', f k')) =
        (a, if a = a then f a + 1 else f a) ::
          rest.map fun k' => (k', if k' = a then f k' + 1 else f k')
      rw [if_pos rfl]
      congr 1
      apply List.map_congr_left
      intro x hx
      have : x ≠ a := fun he => hnd.1 (he ▸ hx)
      rw [if_neg this]
    · rw [if_neg hak]
      have hkrest : k ∈ rest := by
        rcases List.mem_cons.1 hk with rfl | h
        · exact absurd rfl hak
        · exact h
      rw [ih k hnd.2 hkrest]
      show (a, f a) :: _ = (a, if a = k then f a + 1 else f a) :: _
      rw [if_neg hak]

theorem keyFreq_normal (ks : List String) :
    List.foldl bumpKey [] ks = (firstSeen ks).map fun k => (k, ks.count k) := by
  induction ks using List.reverseRecOn with
  | nil => rfl
  | append_singleton pre k ih =>
    rw [List.foldl_append, ih]
    show bumpKey _ k = _
    unfold firstSeen
    rw [firstSeenFrom_append_one]
    simp only [List.not_mem_nil, false_or]
    by_cases h : k ∈ pre
    · rw [if_pos h]
      have hmem : k ∈ firstSeenFrom [] pre :=
        (mem_firstSeenFrom k pre []).2 ⟨h, by simp⟩
      rw [bumpKey_mem (fun k' => pre.count k') (firstSeenFrom [] pre) k
        (nodup_firstSeenFrom pre []) hmem]
      apply List.map_congr_left
      intro x hx
      rw [List.count_append]
      by_cases hxk : x = k
      · subst hxk
        have h1 : List.count x [x] = 1 := by simp
        rw [if_pos rfl, h1]
      · have h0 : List.count x [k] = 0 := by
          simp only [List.count_cons, List.count_nil]
          have hne : ¬ (k == x) = true := by simpa using (Ne.symm hxk)
          simp [hne]
        rw [if_neg hxk, h0]
        simp
    · rw [if_neg h]
      have hnmem : k ∉ ((firstSeenFrom [] pre).map fun k' => (k', pre.count k')).map Prod.fst := by
        intro hc
        rw [List.map_map] at hc
        have : k ∈ firstSeenFrom [] pre := by
          simpa using hc
        exact h ((mem_firstSeenFrom k pre []).1 this).1
      rw [bumpKey_not_mem _ k hnmem, List.map_append]
      congr 1
      · apply List.map_congr_left
        intro x hx
        rw [List.count_append]
        have hxpre : x ∈ pre := ((mem_firstSeenFrom x pre []).1 hx).1
        have hxk : x ≠ k := fun he => h (he ▸ hxpre)
        have h0 : List.count x [k] = 0 := by
          simp only [List.count_cons, List.count_nil]
          have hne : ¬ (k == x) = true := by simpa using (Ne.symm hxk)
          simp [hne]
        rw [h0]
        simp
      · have h1 : List.count k (pre ++ [k]) = 1 := by
          rw [List.count_append]
          have h0 : List.count k pre = 0 := by
            exact List.count_eq_zero.2 h
          have h2 : List.count k [k] = 1 := by simp
          rw [h0, h2]
        simp only [List.map_cons, List.map_nil, h1]

theorem stableThreshold_eq_ceil (sc : Nat) :
    Nat.ceil ((0.4 : ℚ) * sc) = stableThreshold sc := by
  unfold stableThreshold
  rcases Nat.eq_zero_or_pos sc with h | h
  · subst h; simp
  · have hn : (2 * sc + 4) / 5 ≠ 0 := by omega
    rw [Nat.ceil_eq_iff hn]
    have h1 : 5 * ((2 * sc + 4) / 5) ≤ 2 * sc + 4 := by omega
    have h2 : 2 * sc ≤ 5 * ((2 * sc + 4) / 5) := by omega
    have h3 : 1 ≤ (2 * sc + 4) / 5 := Nat.pos_of_ne_zero hn
    have h4 : (5 : ℚ) * (((2 * sc + 4) / 5 : ℕ) : ℚ) ≤ 2 * (sc : ℚ) + 4 := by
      have h' := Nat.cast_le (α := ℚ) |>.2 h1
      push_cast at h'
      linarith
    have h5 : 2 * (sc : ℚ) ≤ 5 * (((2 * sc + 4) / 5 : ℕ) : ℚ) := by
      have h' := Nat.cast_le (α := ℚ) |>.2 h2
      push_cast at h'
      linarith
    constructor
    · have h6 : (((2 * sc + 4) / 5 - 1 : ℕ) : ℚ) = (((2 * sc + 4) / 5 : ℕ) : ℚ) - 1 := by
        push_cast [h3]
        ring
      rw [h6]
      have he : (0.4 : ℚ) * sc = 2 * (sc : ℚ) / 5 := by norm_num; ring
      rw [he]
      linarith
    · have he : (0.4 : ℚ) * sc = 2 * (sc : ℚ) / 5 := by norm_num; ring
      rw [he]
      linarith

theorem scoreArray_eq_ref (arr : List Json) :
    ((scoreArray arr).score, (scoreArray arr).keys) = scoreArrayRef arr := by
  unfold scoreArray scoreArrayRef
  by_cases he : arr.isEmpty
  · rw [if_pos he, if_pos he]
  · rw [if_neg he, if_neg he]
    simp only []
    have hcount : (arr.take (min arr.length 50)).countP Json.isPlainObject =
        ((arr.take (min arr.length 50)).filter Json.isPlainObject).length :=
      List.countP_eq_length_filter _ _
    rw [hcount]
    by_cases hobj : ((arr.take (min arr.length 50)).filter Json.isPlainObject).length = 0
    · rw [if_pos hobj, if_pos hobj]
    · rw [if_neg hobj, if_neg hobj]
      have hkeys :
          (((keyFreq (arr.take (min arr.length 50))).filter
              (fun kn => stableThreshold (min arr.length 50) ≤ kn.2)).map Prod.fst) =
            (firstSeen (keyStream (arr.take (min arr.length 50)))).filter
              (fun k => Nat.ceil ((0.4 : ℚ) * (min arr.length 50)) ≤
                (keyStream (arr.take (min arr.length 50))).count k) := by
        unfold keyFreq
        rw [keyFreq_normal, List.filter_map, List.map_map]
        have hid : Prod.fst ∘
            (fun k => (k, (keyStream (arr.take (min arr.length 50))).count k)) = id := rfl
        rw [hid, List.map_id]
        congr 1
        funext k
        rw [stableThreshold_eq_ceil]
        rfl
      have hfst : (keyFreq (arr.take (min arr.length 50))).map Prod.fst =
          firstSeen (keyStream (arr.take (min arr.length 50))) := by
        unfold keyFreq
        rw [keyFreq_normal, List.map_map]
        have hid : Prod.fst ∘
            (fun k => (k, (keyStream (arr.take (min arr.length 50))).count k)) = id := rfl
        rw [hid, List.map_id]
      rw [hkeys, hfst]

/-! ## Claim theorems -/

/-- C1: the array scorer conforms to its reference definition: for
every array, the source `scoreArray` produces exactly the score and
stable-key list of the specification's reference scorer
`scoreArrayRef` (empty → score 0; no sampled plain object → primitive
score with the synthetic "value" key; otherwise the 40%-threshold
stable keys in first-seen order with fallback to all observed fields),
and the symbolic scores mean exactly the claimed real formulas:
0, 1 + log10(length+1), and ratio×70 + stableKeyCount×5 +
log10(length+1)×10. -/
theorem c1_scorer_conforms (arr : List Json) :
    ((scoreArray arr).score, (scoreArray arr).keys) = scoreArrayRef arr ∧
    Score.zero.interp = 0 ∧
    (∀ len : Nat, (Score.prim len).interp = 1 + Real.logb 10 ((len : ℝ) + 1)) ∧
    (∀ oc sc nk len : Nat, (Score.tab oc sc nk len).interp =
      (oc : ℝ) / (sc : ℝ) * 70 + (nk : ℝ) * 5 + Real.logb 10 ((len : ℝ) + 1) * 10) :=
  ⟨scoreArray_eq_ref arr, rfl, fun _ => rfl, fun _ _ _ _ => rfl⟩

/-- C9: for every input text that the strict JSON parser accepts, the
engine never returns a parse error — the lenient-then-strict strategy
chain guarantees one of the first two strategies succeeds, and every
post-parse stage is total. -/
theorem c9_valid_json_never_errors (p5 pJ : Parser) (text : String) (v : Json)
    (h : pJ text = .ok v) :
    (deriveGridData p5 pJ text).error = none := by
  unfold deriveGridData
  by_cases hb : (jsTrim text.data).isEmpty
  · rw [if_pos hb]
  · rw [if_neg hb]
    have hok : ∃ w, parseTolerant p5 pJ text = .ok w := by
      unfold parseTolerant
      cases hp5 : p5 text with
      | ok w => exact ⟨w, rfl⟩
      | error e1 =>
        rw [h]
        exact ⟨v, rfl⟩
    rcases hok with ⟨w, hw⟩
    rw [hw]
    show (if (keptCands w).isEmpty then (⟨none, none⟩ : DerivationOutput)
      else match (keptCands w).insertionSort candLe with
        | best :: _ => ⟨some (buildBest best), none⟩
        | [] => ⟨none, none⟩).error = none
    by_cases hc : (keptCands w).isEmpty
    · rw [if_pos hc]
    · rw [if_neg hc]
      cases (keptCands w).insertionSort candLe with
      | nil => rfl
      | cons best rest => rfl

theorem c9_witness : (deriveGridData (fun _ => .error "e5")
    (fun s => if s = "[1]" then .ok (.arr [.num 1]) else .error "eJ") "[1]").error = none :=
  c9_valid_json_never_errors _ _ "[1]" (.arr [.num 1]) (by rfl)

/-- The accumulated line values are untouched when every line fails. -/
theorem foldl_lineStep_fst (p5 : Parser) :
    ∀ (lines : List (List Char)) (acc : List Json × Option String),
      (∀ l ∈ lines, ∃ e, p5 (String.mk l) = .error e) →
      (lines.foldl (lineStep p5) acc).1 = acc.1 := by
  intro lines
  induction lines with
  | nil => intro acc _; rfl
  | cons l rest ih =>
    intro acc hall
    rcases hall l (List.mem_cons_self ..) with ⟨e, he⟩
    show (rest.foldl (lineStep p5) (lineStep p5 acc l)).1 = acc.1
    rw [ih (lineStep p5 acc l) (fun x hx => hall x (List.mem_cons_of_mem _ hx))]
    unfold lineStep
    rw [he]

/-- When every line fails, the fold returns no values and the last
line's error message. -/
theorem lineStep_error (p5 : Parser) (acc : List Json × Option String)
    (l : List Char) (e : String) (h : p5 (String.mk l) = .error e) :
    lineStep p5 acc l = (acc.1, some e) := by
  unfold lineStep
  rw [h]

theorem lineStep_ok (p5 : Parser) (acc : List Json × Option String)
    (l : List Char) (v : Json) (h : p5 (String.mk l) = .ok v) :
    lineStep p5 acc l = (acc.1 ++ [v], acc.2) := by
  unfold lineStep
  rw [h]

theorem foldl_lineStep_all_fail (p5 : Parser) (pre : List (List Char))
    (lst : List Char) (acc : List Json × Option String) (elast : String)
    (hall : ∀ l ∈ pre, ∃ e, p5 (String.mk l) = .error e)
    (hlast : p5 (String.mk lst) = .error elast) :
    (pre ++ [lst]).foldl (lineStep p5) acc = (acc.1, some elast) := by
  rw [List.foldl_append]
  show lineStep p5 (pre.foldl (lineStep p5) acc) lst = _
  rw [lineStep_error p5 _ lst elast hlast, foldl_lineStep_fst p5 pre acc hall]

/-- C3 counterexample: with both whole-document strategies failing and
two non-blank lines that both fail line-mode, the returned message is
built from the last line's error only — it does not carry the first
strategy's error message. -/
theorem c3_counterexample :
    parseTolerant (fun s => .error ("E5:" ++ s)) (fun _ => .error "EJ") "l1\nl2" =
      .error "Failed to parse as JSON or JSONL. Last line error: E5:l2" ∧
    ¬ List.IsInfix ("E5:" ++ "l1\nl2").data
        "Failed to parse as JSON or JSONL. Last line error: E5:l2".data := by
  constructor
  · rfl
  · decide

/-- C3 amended: when all three strategies fail, the ParseFailure
message is the first strategy's error message if line-mode was not
attempted (at most one non-blank line); if line-mode was attempted and
every line failed, the message is the fixed annotation carrying only
the last line-mode failure's message. -/
theorem c3_amended (p5 pJ : Parser) (text : String) (e1 e2 elast : String)
    (pre : List (List Char)) (lst : List Char)
    (h1 : p5 text = .error e1) (h2 : pJ text = .error e2) :
    ((nbLines text).length ≤ 1 → parseTolerant p5 pJ text = .error e1) ∧
    (nbLines text = pre ++ [lst] →
      1 < (nbLines text).length →
      (∀ l ∈ pre, ∃ e, p5 (String.mk l) = .error e) →
      p5 (String.mk lst) = .error elast →
      parseTolerant p5 pJ text =
        .error ("Failed to parse as JSON or JSONL. Last line error: " ++ elast)) := by
  constructor
  · intro hle
    unfold parseTolerant
    simp only [h1, h2]
    rw [if_neg (by omega)]
  · intro hsplit hlen hall hlast
    unfold parseTolerant
    simp only [h1, h2]
    rw [hsplit] at hlen
    rw [hsplit, if_pos hlen]
    rw [foldl_lineStep_all_fail p5 pre lst ([], none) elast hall hlast]
    rfl

theorem c3_amended_witness :
    parseTolerant (fun s => .error ("E5:" ++ s)) (fun _ => .error "EJ") "l1\nl2" =
      .error ("Failed to parse as JSON or JSONL. Last line error: " ++ "E5:l2") :=
  (c3_amended (fun s => .error ("E5:" ++ s)) (fun _ => .error "EJ") "l1\nl2"
    ("E5:" ++ "l1\nl2") "EJ" "E5:l2" ["l1".data] "l2".data rfl rfl).2
    (by decide) (by decide)
    (fun l hl => ⟨"E5:" ++ String.mk l, rfl⟩) rfl

/-- The values collected by line-mode are exactly the successfully
parsed lines, in order, with failing lines dropped. -/
theorem foldl_lineStep_objs (p5 : Parser) :
    ∀ (lines : List (List Char)) (acc : List Json × Option String),
      (lines.foldl (lineStep p5) acc).1 =
        acc.1 ++ lines.filterMap (fun l =>
          match p5 (String.mk l) with
          | .ok v => some v
          | .error _ => none) := by
  intro lines
  induction lines with
  | nil => intro acc; simp
  | cons l rest ih =>
    intro acc
    show (rest.foldl (lineStep p5) (lineStep p5 acc l)).1 = _
    rw [ih]
    cases hp : p5 (String.mk l) with
    | ok v =>
      rw [lineStep_ok p5 acc l v hp]
      rw [List.filterMap_cons]
      simp only [hp, List.append_assoc, List.singleton_append]
    | error e =>
      rw [lineStep_error p5 acc l e hp]
      rw [List.filterMap_cons]
      simp only [hp]

/-- C8: line-delimited recovery behaves as specified: it runs only
when both whole-document parses fail and more than one non-blank line
remains; it parses each line with the lenient parser, silently drops
failing lines, and succeeds when at least one line parsed; and the
three-line input of the claim is recovered into 3 rows with the single
column a of type number, with no error. -/
theorem c8_line_recovery (p5 pJ : Parser) :
    (∀ text v, p5 text = .ok v → parseTolerant p5 pJ text = .ok v) ∧
    (∀ text e1 v, p5 text = .error e1 → pJ text = .ok v →
      parseTolerant p5 pJ text = .ok v) ∧
    (∀ text e1 e2, p5 text = .error e1 → pJ text = .error e2 →
      (nbLines text).length ≤ 1 → parseTolerant p5 pJ text = .error e1) ∧
    (∀ text e1 e2, p5 text = .error e1 → pJ text = .error e2 →
      1 < (nbLines text).length →
      (nbLines text).filterMap (fun l =>
        match p5 (String.mk l) with
        | .ok v => some v
        | .error _ => none) ≠ [] →
      parseTolerant p5 pJ text = .ok (.arr ((nbLines text).filterMap (fun l =>
        match p5 (String.mk l) with
        | .ok v => some v
        | .error _ => none)))) ∧
    (∀ e1 e2,
      p5 "\x7b\"a\":1\x7d\n\x7b\"a\":2\x7d\n\x7b\"a\":3\x7d" = .error e1 →
      pJ "\x7b\"a\":1\x7d\n\x7b\"a\":2\x7d\n\x7b\"a\":3\x7d" = .error e2 →
      p5 "\x7b\"a\":1\x7d" = .ok (.obj [("a", .num 1)]) →
      p5 "\x7b\"a\":2\x7d" = .ok (.obj [("a", .num 2)]) →
      p5 "\x7b\"a\":3\x7d" = .ok (.obj [("a", .num 3)]) →
      (deriveGridData p5 pJ "\x7b\"a\":1\x7d\n\x7b\"a\":2\x7d\n\x7b\"a\":3\x7d").error = none ∧
      ((deriveGridData p5 pJ "\x7b\"a\":1\x7d\n\x7b\"a\":2\x7d\n\x7b\"a\":3\x7d").data.map fun d =>
        (d.rows.length, d.columns)) =
          some (3, [⟨"a", ColType.number⟩])) := by
  have hok : ∀ text v, p5 text = .ok v → parseTolerant p5 pJ text = .ok v := by
    intro text v h
    unfold parseTolerant
    simp only [h]
  have hok2 : ∀ text e1 v, p5 text = .error e1 → pJ text = .ok v →
      parseTolerant p5 pJ text = .ok v := by
    intro text e1 v h1 h2
    unfold parseTolerant
    simp only [h1, h2]
  have hle1 : ∀ text e1 e2, p5 text = .error e1 → pJ text = .error e2 →
      (nbLines text).length ≤ 1 → parseTolerant p5 pJ text = .error e1 := by
    intro text e1 e2 h1 h2 hle
    unfold parseTolerant
    simp only [h1, h2]
    rw [if_neg (by omega)]
  have hrec : ∀ text e1 e2, p5 text = .error e1 → pJ text = .error e2 →
      1 < (nbLines text).length →
      (nbLines text).filterMap (fun l =>
        match p5 (String.mk l) with
        | .ok v => some v
        | .error _ => none) ≠ [] →
      parseTolerant p5 pJ text = .ok (.arr ((nbLines text).filterMap (fun l =>
        match p5 (String.mk l) with
        | .ok v => some v
        | .error _ => none))) := by
    intro text e1 e2 h1 h2 hlen hne
    unfold parseTolerant
    simp only [h1, h2]
    rw [if_pos hlen]
    have hobjs : ((nbLines text).foldl (lineStep p5) ([], none)).1 =
        (nbLines text).filterMap (fun l =>
          match p5 (String.mk l) with
          | .ok v => some v
          | .error _ => none) := by
      rw [foldl_lineStep_objs]
      rfl
    rw [hobjs]
    have hbe : ((nbLines text).filterMap (fun l =>
        match p5 (String.mk l) with
        | .ok v => some v
        | .error _ => none)).isEmpty = false := by
      cases hX : ((nbLines text).filterMap (fun l =>
          match p5 (String.mk l) with
          | .ok v => some v
          | .error _ => none)).isEmpty
      · rfl
      · exact absurd (List.isEmpty_iff.1 hX) hne
    rw [if_pos (by rw [hbe]; rfl)]
  refine ⟨hok, hok2, hle1, hrec, ?_⟩
  intro e1 e2 h1 h2 hl1 hl2 hl3
  have hnb : nbLines "\x7b\"a\":1\x7d\n\x7b\"a\":2\x7d\n\x7b\"a\":3\x7d" =
      ["\x7b\"a\":1\x7d".data, "\x7b\"a\":2\x7d".data, "\x7b\"a\":3\x7d".data] := by decide
  have hparse : parseTolerant p5 pJ "\x7b\"a\":1\x7d\n\x7b\"a\":2\x7d\n\x7b\"a\":3\x7d" =
      .ok (.arr [.obj [("a", .num 1)], .obj [("a", .num 2)], .obj [("a", .num 3)]]) := by
    unfold parseTolerant
    simp only [h1, h2]
    rw [hnb]
    rw [if_pos (by decide)]
    rw [show List.foldl (lineStep p5) ([], none)
        ["\x7b\"a\":1\x7d".data, "\x7b\"a\":2\x7d".data, "\x7b\"a\":3\x7d".data] =
      lineStep p5 (lineStep p5 (lineStep p5 ([], none) "\x7b\"a\":1\x7d".data)
        "\x7b\"a\":2\x7d".data) "\x7b\"a\":3\x7d".data from rfl]
    rw [lineStep_ok p5 _ _ _ hl1, lineStep_ok p5 _ _ _ hl2, lineStep_ok p5 _ _ _ hl3]
    rfl
  constructor
  · unfold deriveGridData
    rw [if_neg (by decide)]
    simp only [hparse]
    rfl
  · unfold deriveGridData
    rw [if_neg (by decide)]
    simp only [hparse]
    rfl

theorem c8_witness :
    (deriveGridData c8P5 c8PJ "\x7b\"a\":1\x7d\n\x7b\"a\":2\x7d\n\x7b\"a\":3\x7d").error = none ∧
    ((deriveGridData c8P5 c8PJ "\x7b\"a\":1\x7d\n\x7b\"a\":2\x7d\n\x7b\"a\":3\x7d").data.map fun d =>
      (d.rows.length, d.columns)) = some (3, [⟨"a", ColType.number⟩]) :=
  (c8_line_recovery c8P5 c8PJ).2.2.2.2 "E5" "EJ" (by rfl) rfl (by rfl) (by rfl) (by rfl)

/-! ## Row and column facts -/

theorem toCell_flat (v : Json) : (toCell v).isStructural = false := by
  cases v with
  | str s =>
    by_cases h : jsDateMatch s.data <;>
      simp [toCell, inferType, h, Json.isStructural]
  | null => rfl
  | bool b => rfl
  | num n => rfl
  | arr xs => rfl
  | obj fs => rfl

mutual

theorem generateSubRows_flat : (j : Json) → flatCellsList (generateSubRows j) = true
  | .obj fs => genFields_flat fs
  | .arr xs => genElems_flat 0 xs
  | .null => rfl
  | .bool _ => rfl
  | .num _ => rfl
  | .str _ => rfl

theorem genFields_flat : (fs : List (String × Json)) →
    flatCellsList (genFields fs) = true
  | [] => rfl
  | (k, v) :: fs => by
    show (GridRow.flatCells _ && flatCellsList (genFields fs)) = true
    rw [Bool.and_eq_true]
    refine ⟨?_, genFields_flat fs⟩
    show (List.all _ _ && flatCellsList _) = true
    rw [Bool.and_eq_true]
    constructor
    · simp only [List.all_cons, List.all_nil, cellFlat, toCell_flat]
      rfl
    · by_cases hv : v.isStructural
      · rw [if_pos hv]
        exact generateSubRows_flat v
      · rw [if_neg hv]
        rfl

theorem genElems_flat : (i : Nat) → (xs : List Json) →
    flatCellsList (genElems i xs) = true
  | _, [] => rfl
  | i, v :: xs => by
    show (GridRow.flatCells _ && flatCellsList (genElems (i + 1) xs)) = true
    rw [Bool.and_eq_true]
    refine ⟨?_, genElems_flat (i + 1) xs⟩
    show (List.all _ _ && flatCellsList _) = true
    rw [Bool.and_eq_true]
    constructor
    · simp only [List.all_cons, List.all_nil, cellFlat, toCell_flat]
      rfl
    · by_cases hv : v.isStructural
      · rw [if_pos hv]
        exact generateSubRows_flat v
      · rw [if_neg hv]
        rfl

end

theorem flatCellsList_append (l1 l2 : List GridRow) :
    flatCellsList (l1 ++ l2) = (flatCellsList l1 && flatCellsList l2) := by
  induction l1 with
  | nil => rfl
  | cons r rs ih =>
    show (r.flatCells && flatCellsList (rs ++ l2)) = _
    rw [ih]
    show _ = ((r.flatCells && flatCellsList rs) && _)
    rw [Bool.and_assoc]

theorem flatCellsList_flatMap_gen (l : List (String × Json)) :
    flatCellsList (l.flatMap fun kv => generateSubRows (.obj [kv])) = true := by
  induction l with
  | nil => rfl
  | cons kv rest ih =>
    rw [List.flatMap_cons, flatCellsList_append, ih,
      generateSubRows_flat (.obj [kv])]
    rfl

theorem valueRow_flat (v : Json) : (valueRow v).flatCells = true := by
  show (List.all _ _ && flatCellsList []) = true
  simp only [List.all_cons, List.all_nil, cellFlat, toCell_flat]
  rfl

theorem normRowObj_flat (keys : List String) (fs : List (String × Json)) :
    (normRowObj keys fs).flatCells = true := by
  show (List.all _ _ && flatCellsList _) = true
  rw [Bool.and_eq_true]
  constructor
  · rw [List.all_eq_true]
    intro p hp
    rcases List.mem_map.1 hp with ⟨k, _, hpk⟩
    subst hpk
    show cellFlat (objCellValue fs k) = true
    unfold objCellValue
    cases h : fs.lookup k with
    | none => rfl
    | some v =>
      show cellFlat (if v.isStructural then some (toCell v) else some v) = true
      by_cases hv : v.isStructural
      · rw [if_pos hv]
        show (!(toCell v).isStructural) = true
        rw [toCell_flat]
        rfl
      · rw [if_neg hv]
        show (!v.isStructural) = true
        cases hb : v.isStructural
        · rfl
        · exact absurd hb hv
  · exact flatCellsList_flatMap_gen _

/-- Every row the normalizer produces has flat cells, recursively. -/
theorem normalizeRows_flat (arr : List Json) (keys : List String) :
    ∀ r ∈ normalizeRows arr keys, r.flatCells = true := by
  intro r hr
  unfold normalizeRows at hr
  by_cases hk : keys = ["value"]
  · rw [if_pos hk] at hr
    rcases List.mem_map.1 hr with ⟨v, _, hv⟩
    subst hv
    exact valueRow_flat v
  · rw [if_neg hk] at hr
    rcases List.mem_map.1 hr with ⟨v, _, hv⟩
    subst hv
    cases v with
    | obj fs => exact normRowObj_flat keys fs
    | null => exact valueRow_flat _
    | bool b => exact valueRow_flat _
    | num n => exact valueRow_flat _
    | str s => exact valueRow_flat _
    | arr xs => exact valueRow_flat _

theorem lookup_map_pair (f : String → Option Json) :
    ∀ (l : List String) (k : String), k ∈ l →
      (l.map fun k' => (k', f k')).lookup k = some (f k) := by
  intro l
  induction l with
  | nil => intro k hk; cases hk
  | cons a rest ih =>
    intro k hk
    by_cases hka : k = a
    · subst hka
      simp [List.lookup]
    · have hbeq : (k == a) = false := by simpa using hka
      have hk' : k ∈ rest := by
        rcases List.mem_cons.1 hk with rfl | hk'
        · exact absurd rfl hka
        · exact hk'
      simp only [List.map_cons, List.lookup, hbeq]
      exact ih k hk'

theorem lookup_some_mem_fst :
    ∀ (fs : List (String × Json)) (k : String) (v : Json),
      fs.lookup k = some v → k ∈ fs.map Prod.fst := by
  intro fs
  induction fs with
  | nil => intro k v h; cases h
  | cons p rest ih =>
    rcases p with ⟨a, b⟩
    intro k v h
    by_cases hka : k = a
    · subst hka
      simp
    · have hbeq : (k == a) = false := by simpa using hka
      simp only [List.lookup, hbeq] at h
      simp only [List.map_cons, List.mem_cons]
      exact Or.inr (ih k v h)

theorem lookup_some_of_findSome? {rows : List GridRow} {k : String} {v : Json}
    (h : firstDefined rows k = some v) :
    ∃ r ∈ rows, (r.cells.lookup k).join = some v := by
  unfold firstDefined at h
  exact List.exists_of_findSome?_eq_some h

theorem lookup_mem :
    ∀ (l : List (String × Option Json)) (k : String) (o : Option Json),
      l.lookup k = some o → (k, o) ∈ l := by
  intro l
  induction l with
  | nil => intro k o h; cases h
  | cons p rest ih =>
    rcases p with ⟨a, b⟩
    intro k o h
    by_cases hka : k = a
    · subst hka
      have hbeq : (k == k) = true := by simp
      simp only [List.lookup, hbeq] at h
      have hbo : b = o := Option.some.inj h
      subst hbo
      exact List.mem_cons_self ..
    · have hbeq : (k == a) = false := by simpa using hka
      simp only [List.lookup, hbeq] at h
      exact List.mem_cons_of_mem _ (ih k o h)

theorem row_cell_flat {r : GridRow} (hr : r.flatCells = true)
    {k : String} {v : Json} (h : (r.cells.lookup k).join = some v) :
    v.isStructural = false := by
  have hsome : r.cells.lookup k = some (some v) := by
    cases hl : r.cells.lookup k with
    | none => rw [hl] at h; cases h
    | some o =>
      rw [hl] at h
      cases o with
      | none => cases h
      | some w =>
        have : w = v := by
          simpa using h
        subst this
        rfl
  have hmem : (k, some v) ∈ r.cells := lookup_mem _ k _ hsome
  rcases r with ⟨cells, subs, b⟩
  have hall : cells.all (fun p => cellFlat p.2) = true := by
    have h2 : (cells.all (fun p => cellFlat p.2) && flatCellsList subs) = true := hr
    rw [Bool.and_eq_true] at h2
    exact h2.1
  have := (List.all_eq_true.1 hall) _ hmem
  show _ = false
  cases hs : v.isStructural
  · rfl
  · rw [show cellFlat (some v) = !v.isStructural from rfl, hs] at this
    cases this

theorem specDate_imp_jsDate (cs : List Char) (h : specDateMatch cs = true) :
    jsDateMatch cs = true := by
  unfold specDateMatch at h
  unfold jsDateMatch
  cases h4 : takeDigits 4 cs with
  | none => rw [h4] at h; exact Bool.noConfusion h
  | some r1 =>
    rw [h4] at h
    simp only [] at h ⊢
    cases hc1 : takeChar '-' r1 with
    | none => rw [hc1] at h; exact Bool.noConfusion h
    | some r2 =>
      rw [hc1] at h
      simp only [] at h ⊢
      cases h2 : takeDigits 2 r2 with
      | none => rw [h2] at h; exact Bool.noConfusion h
      | some r3 =>
        rw [h2] at h
        simp only [] at h ⊢
        cases hc2 : takeChar '-' r3 with
        | none => rw [hc2] at h; exact Bool.noConfusion h
        | some r4 =>
          rw [hc2] at h
          simp only [] at h ⊢
          cases h3 : takeDigits 2 r4 with
          | none => rw [h3] at h; exact Bool.noConfusion h
          | some l =>
            rw [h3] at h
            cases l with
            | nil => rfl
            | cons c rest =>
              simp only [] at h ⊢
              by_cases hT : (c = 'T' || c = ' ') = true
              · rw [if_pos hT] at h
                have hT2 : (c = 'T' || jsWhitespace c) = true := by
                  rw [Bool.or_eq_true] at hT ⊢
                  rcases hT with h' | h'
                  · exact Or.inl h'
                  · right
                    have hce : c = ' ' := by simpa using h'
                    rw [hce]
                    rfl
                rw [if_pos hT2]
                exact h
              · rw [if_neg hT] at h
                exact Bool.noConfusion h

theorem firstDefined_eq_find? (rows : List GridRow) (k : String) :
    firstDefined rows k =
      (rows.find? fun r => ((r.cells.lookup k).join).isSome).bind
        fun r => (r.cells.lookup k).join := by
  induction rows with
  | nil => rfl
  | cons r rest ih =>
    unfold firstDefined
    rw [List.findSome?_cons]
    cases hj : (r.cells.lookup k).join with
    | some v =>
      rw [List.find?_cons_of_pos _ (by rw [hj]; rfl)]
      exact hj.symm
    | none =>
      rw [List.find?_cons_of_neg _ (by rw [hj]; simp)]
      rw [← ih]
      rfl

/-- C6: column type inference takes, for each column, the type of the
first row (in row order) with a defined value for the column, and
`undefined` when no row defines it; a string matching the
ISO-8601-like pattern of the claim (with `T` or a space as separator)
is classified `date`; in particular "2023-01-01T10:00:00Z" is typed
date and "12345" string. -/
theorem c6_column_type_inference (rows : List GridRow) (s : String) :
    buildColumns rows = (colKeys rows).map (fun k =>
      ⟨k, match (rows.find? fun r => ((r.cells.lookup k).join).isSome).bind
            (fun r => (r.cells.lookup k).join) with
          | some v => inferType v
          | none => .undefined⟩) ∧
    (specDateMatch s.data = true → inferType (.str s) = .date) ∧
    inferType (.str "2023-01-01T10:00:00Z") = .date ∧
    inferType (.str "12345") = .string := by
  refine ⟨?_, ?_, by decide, by decide⟩
  · unfold buildColumns
    apply List.map_congr_left
    intro k _
    rw [firstDefined_eq_find?]
  · intro h
    show (if jsDateMatch s.data then ColType.date else ColType.string) = .date
    rw [if_pos (specDate_imp_jsDate s.data h)]

theorem c6_witness : inferType (.str "2023-01-01 10:00:00.123+05:30") = .date :=
  (c6_column_type_inference [] "2023-01-01 10:00:00.123+05:30").2.1 (by decide)

/-- C10: for every derivation's rows, every inferred column type is one
of string/number/boolean/date/null/undefined — never object or array,
because the normalizer summarizes every structural cell before column
inference runs. -/
theorem c10_no_structural_column_types (arr : List Json) (keys : List String) :
    ∀ c ∈ buildColumns (normalizeRows arr keys),
      c.type ∈ [ColType.string, ColType.number, ColType.boolean,
        ColType.date, ColType.null, ColType.undefined] ∧
      c.type ≠ ColType.object ∧ c.type ≠ ColType.array := by
  intro c hc
  unfold buildColumns at hc
  rcases List.mem_map.1 hc with ⟨k, hk, hck⟩
  subst hck
  show (match firstDefined (normalizeRows arr keys) k with
    | some v => inferType v
    | none => ColType.undefined) ∈ _ ∧ _
  cases hfd : firstDefined (normalizeRows arr keys) k with
  | none => simp
  | some v =>
    simp only []
    rcases lookup_some_of_findSome? hfd with ⟨r, hr, hjoin⟩
    have hflat := row_cell_flat (normalizeRows_flat arr keys r hr) hjoin
    cases v with
    | arr xs => exact absurd hflat (by simp [Json.isStructural])
    | obj fs => exact absurd hflat (by simp [Json.isStructural])
    | null => simp [inferType]
    | bool b => simp [inferType]
    | num n => simp [inferType]
    | str s =>
      by_cases hd : jsDateMatch s.data
      · simp [inferType, hd]
      · simp [inferType, hd]

/-- C5 counterexample: deriving from `[[1,2],[3]]` selects the root
array in synthetic value mode; both rows store only a summary string
of their (structural) array element, but attach no secondary rows, so
the nested value is not reachable — the claim fails for value-mode and
degraded rows. -/
theorem c5_counterexample :
    (deriveGridData c5P5 c8PJ "[[1,2],[3]]").data.map (fun d => d.rows) =
      some [GridRow.mk [("value", some (.str "Array(2)"))] [] false,
            GridRow.mk [("value", some (.str "Array(1)"))] [] false] ∧
    (Json.arr [.num 1, .num 2]).isStructural = true ∧
    ¬ (∀ rows, (deriveGridData c5P5 c8PJ "[[1,2],[3]]").data.map
        (fun d => d.rows) = some rows →
        ∀ r ∈ rows, r.subRows ≠ []) := by
  refine ⟨by rfl, rfl, ?_⟩
  intro hreach
  exact hreach [GridRow.mk [("value", some (.str "Array(2)"))] [] false,
      GridRow.mk [("value", some (.str "Array(1)"))] [] false] (by rfl)
    (GridRow.mk [("value", some (.str "Array(2)"))] [] false)
    (List.mem_cons_self ..) rfl

/-- C5 amended: cells never hold raw structures — every cell of every
row (recursively through secondary rows) is a summary or scalar; for a
plain-object element in object mode each structural field value is
summarized in the cell and additionally reachable through an attached
secondary row carrying the recursive expansion of the nested value;
value-mode rows and degraded non-object elements are summarized
without any attached secondary rows. -/
theorem c5_amended (arr : List Json) (keys : List String) :
    (∀ r ∈ normalizeRows arr keys, r.flatCells = true) ∧
    (keys ≠ ["value"] → ∀ fs, Json.obj fs ∈ arr →
      normRowObj keys fs ∈ normalizeRows arr keys ∧
      ∀ k v, fs.lookup k = some v → v.isStructural = true →
        (normRowObj keys fs).cells.lookup k = some (some (toCell v)) ∧
        GridRow.mk [("key", some (.str k)), ("value", some (toCell v))]
            (generateSubRows v) true ∈ (normRowObj keys fs).subRows) ∧
    (normalizeRows arr ["value"] = arr.map valueRow) ∧
    (keys ≠ ["value"] → ∀ v ∈ arr, v.isPlainObject = false →
      valueRow v ∈ normalizeRows arr keys ∧ (valueRow v).subRows = []) := by
  refine ⟨normalizeRows_flat arr keys, ?_, by unfold normalizeRows; rw [if_pos rfl], ?_⟩
  · intro hk fs hmem
    constructor
    · unfold normalizeRows
      rw [if_neg hk]
      exact List.mem_map.2 ⟨.obj fs, hmem, rfl⟩
    · intro k v hlk hstruct
      have hkfs : k ∈ fs.map Prod.fst := lookup_some_mem_fst fs k v hlk
      have hkall : k ∈ firstSeen (keys ++ fs.map Prod.fst) := by
        apply (mem_firstSeenFrom k _ []).2
        exact ⟨List.mem_append.2 (Or.inr hkfs), by simp⟩
      constructor
      · show ((firstSeen (keys ++ fs.map Prod.fst)).map
          (fun k' => (k', objCellValue fs k'))).lookup k = _
        rw [lookup_map_pair (objCellValue fs) _ k hkall]
        unfold objCellValue
        rw [hlk]
        show some (if v.isStructural then some (toCell v) else some v) = _
        rw [if_pos hstruct]
      · show _ ∈ (objStructFields fs (firstSeen (keys ++ fs.map Prod.fst))).flatMap
          fun kv => generateSubRows (.obj [kv])
        apply List.mem_flatMap.2
        refine ⟨(k, v), ?_, ?_⟩
        · unfold objStructFields
          apply List.mem_filterMap.2
          refine ⟨k, hkall, ?_⟩
          rw [hlk]
          show (if v.isStructural then some (k, v) else none) = _
          rw [if_pos hstruct]
        · show _ ∈ genFields [(k, v)]
          show _ ∈ [GridRow.mk [("key", some (.str k)), ("value", some (toCell v))]
            (if v.isStructural then generateSubRows v else []) true]
          rw [if_pos hstruct]
          exact List.mem_cons_self ..
  · intro hk v hv hnp
    constructor
    · unfold normalizeRows
      rw [if_neg hk]
      apply List.mem_map.2
      refine ⟨v, hv, ?_⟩
      cases v with
      | obj fs => exact absurd hnp (by simp [Json.isPlainObject])
      | null => rfl
      | bool b => rfl
      | num n => rfl
      | str s => rfl
      | arr xs => rfl
    · rfl

theorem c5_amended_witness :
    (normRowObj ["a"] [("a", .arr [.num 1])]).cells.lookup "a" =
      some (some (.str "Array(1)")) ∧
    GridRow.mk [("key", some (.str "a")), ("value", some (.str "Array(1)"))]
        (generateSubRows (.arr [.num 1])) true ∈
      (normRowObj ["a"] [("a", .arr [.num 1])]).subRows :=
  ((c5_amended [.obj [("a", .arr [.num 1])]] ["a"]).2.1 (by decide)
    [("a", .arr [.num 1])] (List.mem_cons_self ..)).2 "a" (.arr [.num 1]) rfl rfl

theorem c10_witness :
    (GridColumn.mk "a" ColType.number).type ∈ [ColType.string, ColType.number,
      ColType.boolean, ColType.date, ColType.null, ColType.undefined] ∧
    (GridColumn.mk "a" ColType.number).type ≠ ColType.object ∧
    (GridColumn.mk "a" ColType.number).type ≠ ColType.array :=
  c10_no_structural_column_types [.obj [("a", .num 1)]] ["a"] ⟨"a", .number⟩ (by decide)

/-- C7: on the two-record example input, the engine returns path `$`,
exactly 2 rows, and exactly the 3 columns id:number, name:string,
active:boolean in that order, with no error (given that the lenient
parser parses the text to its JSON value). -/
theorem c7_two_record_example (p5 pJ : Parser)
    (h : p5 "[\x7b\"id\":1,\"name\":\"Alice\",\"active\":true\x7d,\x7b\"id\":2,\"name\":\"Bob\",\"active\":false\x7d]" =
      .ok (.arr [.obj [("id", .num 1), ("name", .str "Alice"), ("active", .bool true)],
        .obj [("id", .num 2), ("name", .str "Bob"), ("active", .bool false)]])) :
    (deriveGridData p5 pJ
      "[\x7b\"id\":1,\"name\":\"Alice\",\"active\":true\x7d,\x7b\"id\":2,\"name\":\"Bob\",\"active\":false\x7d]").error = none ∧
    (deriveGridData p5 pJ
      "[\x7b\"id\":1,\"name\":\"Alice\",\"active\":true\x7d,\x7b\"id\":2,\"name\":\"Bob\",\"active\":false\x7d]").data.map
        (fun d => d.path) = some "$" ∧
    (deriveGridData p5 pJ
      "[\x7b\"id\":1,\"name\":\"Alice\",\"active\":true\x7d,\x7b\"id\":2,\"name\":\"Bob\",\"active\":false\x7d]").data.map
        (fun d => d.rows.length) = some 2 ∧
    (deriveGridData p5 pJ
      "[\x7b\"id\":1,\"name\":\"Alice\",\"active\":true\x7d,\x7b\"id\":2,\"name\":\"Bob\",\"active\":false\x7d]").data.map
        (fun d => d.columns) =
      some [⟨"id", ColType.number⟩, ⟨"name", ColType.string⟩, ⟨"active", ColType.boolean⟩] := by
  have hparse : parseTolerant p5 pJ
      "[\x7b\"id\":1,\"name\":\"Alice\",\"active\":true\x7d,\x7b\"id\":2,\"name\":\"Bob\",\"active\":false\x7d]" =
      .ok (.arr [.obj [("id", .num 1), ("name", .str "Alice"), ("active", .bool true)],
        .obj [("id", .num 2), ("name", .str "Bob"), ("active", .bool false)]]) := by
    unfold parseTolerant
    simp only [h]
  refine ⟨?_, ?_, ?_, ?_⟩ <;>
    (unfold deriveGridData; rw [if_neg (by decide)]; simp only [hparse]; rfl)

theorem c7_witness :
    (deriveGridData c7P5 c8PJ
      "[\x7b\"id\":1,\"name\":\"Alice\",\"active\":true\x7d,\x7b\"id\":2,\"name\":\"Bob\",\"active\":false\x7d]").error = none ∧
    (deriveGridData c7P5 c8PJ
      "[\x7b\"id\":1,\"name\":\"Alice\",\"active\":true\x7d,\x7b\"id\":2,\"name\":\"Bob\",\"active\":false\x7d]").data.map
        (fun d => d.path) = some "$" ∧
    (deriveGridData c7P5 c8PJ
      "[\x7b\"id\":1,\"name\":\"Alice\",\"active\":true\x7d,\x7b\"id\":2,\"name\":\"Bob\",\"active\":false\x7d]").data.map
        (fun d => d.rows.length) = some 2 ∧
    (deriveGridData c7P5 c8PJ
      "[\x7b\"id\":1,\"name\":\"Alice\",\"active\":true\x7d,\x7b\"id\":2,\"name\":\"Bob\",\"active\":false\x7d]").data.map
        (fun d => d.columns) =
      some [⟨"id", ColType.number⟩, ⟨"name", ColType.string⟩, ⟨"active", ColType.boolean⟩] :=
  c7_two_record_example c7P5 c8PJ (by rfl)

/-! ## C4: path formatting -/

theorem rep_cons_ne {c : Char} (hc : c ≠ '.') (x : List Char) :
    repDotBracket (c :: x) = c :: repDotBracket x := by
  cases x with
  | nil => rfl
  | cons c2 x' =>
    show (if c = '.' then _ else c :: repDotBracket (c2 :: x')) = _
    rw [if_neg hc]

theorem rep_dot_no_bracket {x : List Char}
    (hx : x = [] ∨ ∃ c2 x', x = c2 :: x' ∧ c2 ≠ '[') :
    repDotBracket ('.' :: x) = '.' :: repDotBracket x := by
  rcases hx with rfl | ⟨c2, x', rfl, hc2⟩
  · rfl
  · show (if ('.' : Char) = '.' then
        (if c2 = '[' then '[' :: repDotBracket x'
          else '.' :: repDotBracket (c2 :: x'))
      else '.' :: repDotBracket (c2 :: x')) = _
    rw [if_pos rfl, if_neg hc2]

theorem rep_dot_bracket (x : List Char) :
    repDotBracket ('.' :: '[' :: x) = '[' :: repDotBracket x := by
  show (if ('.' : Char) = '.' then
      (if ('[' : Char) = '[' then '[' :: repDotBracket x
        else '.' :: repDotBracket ('[' :: x))
    else '.' :: repDotBracket ('[' :: x)) = _
  rw [if_pos rfl, if_pos rfl]

theorem rep_append_no_dot :
    ∀ (t r : List Char), (∀ c ∈ t, c ≠ '.') →
      repDotBracket (t ++ r) = t ++ repDotBracket r := by
  intro t
  induction t with
  | nil => intro r _; rfl
  | cons c t' ih =>
    intro r ht
    rw [List.cons_append, rep_cons_ne (ht c (List.mem_cons_self ..)) _]
    rw [ih r (fun x hx => ht x (List.mem_cons_of_mem _ hx))]
    rfl

theorem joinDot_cons (x : List Char) :
    ∀ l : List (List Char), joinDot (x :: l) = x ++ l.flatMap (fun y => '.' :: y) := by
  intro l
  induction l generalizing x with
  | nil => simp [joinDot]
  | cons y l' ih =>
    show x ++ '.' :: joinDot (y :: l') = _
    rw [ih y]
    simp

theorem digitsClose_decomp :
    ∀ t : List Char, digitsClose t = true →
      ∃ ds, t = ds ++ [']'] ∧ ∀ c ∈ ds, isDigitChar c = true := by
  intro t
  induction t with
  | nil => intro h; cases h
  | cons c rest ih =>
    intro h
    cases rest with
    | nil =>
      have hc : c = ']' := by simpa [digitsClose] using h
      exact ⟨[], by rw [hc]; rfl, by simp⟩
    | cons c2 rest' =>
      have h2 : isDigitChar c = true ∧ digitsClose (c2 :: rest') = true := by
        simpa [digitsClose, Bool.and_eq_true] using h
      rcases ih h2.2 with ⟨ds, hds, hall⟩
      refine ⟨c :: ds, by rw [hds]; rfl, ?_⟩
      intro x hx
      rcases List.mem_cons.1 hx with rfl | hx
      · exact h2.1
      · exact hall x hx

theorem digit_ne_dot {c : Char} (h : isDigitChar c = true) : c ≠ '.' := by
  intro he
  subst he
  cases h

theorem digit_ne_rbracket {c : Char} (h : isDigitChar c = true) : c ≠ ']' := by
  intro he
  subst he
  cases h

theorem isIdxSeg_decomp {s : String} (h : isIdxSeg s = true) :
    ∃ ds, s.data = '[' :: ds ++ [']'] ∧ ds ≠ [] ∧ ∀ c ∈ ds, isDigitChar c = true := by
  unfold isIdxSeg at h
  cases hd : s.data with
  | nil => rw [hd] at h; cases h
  | cons c0 rest0 =>
    rw [hd] at h
    cases rest0 with
    | nil => cases h
    | cons c1 rest1 =>
      simp only [Bool.and_eq_true, decide_eq_true_eq] at h
      rcases h with ⟨⟨hc0, hc1⟩, hdc⟩
      rcases digitsClose_decomp rest1 hdc with ⟨ds', hds, hall⟩
      subst hc0
      refine ⟨c1 :: ds', by rw [hds]; simp, by simp, ?_⟩
      intro c hc
      rcases List.mem_cons.1 hc with rfl | hc
      · exact hc1
      · exact hall c hc

theorem rseg_headFails {s : String} (_h : (isIdxSeg s || isFieldSeg s) = true) :
    ∃ c tl, rseg s = c :: tl ∧ (!(c = '.') && !(c = '[')) = false := by
  unfold rseg
  by_cases hi : isIdxSeg s = true
  · rw [if_pos hi]
    rcases isIdxSeg_decomp hi with ⟨ds, hds, _, _⟩
    exact ⟨'[', ds ++ [']'], hds, by decide⟩
  · rw [if_neg hi]
    exact ⟨'.', s.data, rfl, by decide⟩

theorem flatMap_rseg_headFails {segs : List String}
    (h : ∀ s ∈ segs, (isIdxSeg s || isFieldSeg s) = true) :
    segs.flatMap rseg = [] ∨
      ∃ c tl, segs.flatMap rseg = c :: tl ∧ (!(c = '.') && !(c = '[')) = false := by
  cases segs with
  | nil => exact Or.inl rfl
  | cons s rest =>
    right
    rcases rseg_headFails (h s (List.mem_cons_self ..)) with ⟨c, tl, hr, hc⟩
    exact ⟨c, tl ++ rest.flatMap rseg, by rw [List.flatMap_cons, hr]; rfl, hc⟩

theorem rep_joinSegs :
    ∀ segs : List String, (∀ s ∈ segs, (isIdxSeg s || isFieldSeg s) = true) →
      repDotBracket (segs.flatMap fun s => '.' :: s.data) = segs.flatMap rseg := by
  intro segs
  induction segs with
  | nil => intro _; rfl
  | cons s rest ih =>
    intro h
    have hrest : ∀ x ∈ rest, (isIdxSeg x || isFieldSeg x) = true :=
      fun x hx => h x (List.mem_cons_of_mem _ hx)
    rw [List.flatMap_cons, List.flatMap_cons]
    by_cases hi : isIdxSeg s = true
    · rcases isIdxSeg_decomp hi with ⟨ds, hds, _, hdig⟩
      rw [hds]
      show repDotBracket
        ('.' :: '[' :: ((ds ++ [']']) ++ rest.flatMap fun s => '.' :: s.data)) = _
      rw [rep_dot_bracket]
      rw [rep_append_no_dot (ds ++ [']']) _ (by
        intro c hc
        rcases List.mem_append.1 hc with hc | hc
        · exact digit_ne_dot (hdig c hc)
        · rw [List.mem_singleton] at hc
          subst hc
          decide)]
      rw [ih hrest]
      rw [show rseg s = s.data from if_pos hi, hds]
      simp
    · have hf : isFieldSeg s = true := by
        rcases Bool.or_eq_true .. |>.mp (h s (List.mem_cons_self ..)) with h' | h'
        · exact absurd h' hi
        · exact h'
      have hfield : ∀ c ∈ s.data, (!(c = '.') && !(c = '[')) = true :=
        List.all_eq_true.1 hf
      have hnodot : ∀ c ∈ s.data, c ≠ '.' := by
        intro c hc he
        have hcc := hfield c hc
        subst he
        simp at hcc
      have hF : (rest.flatMap fun s => '.' :: s.data) = [] ∨
          ∃ tl, (rest.flatMap fun s => '.' :: s.data) = '.' :: tl := by
        cases rest with
        | nil => exact Or.inl rfl
        | cons q r' =>
          exact Or.inr ⟨q.data ++ r'.flatMap (fun s => '.' :: s.data),
            by rw [List.flatMap_cons]; rfl⟩
      show repDotBracket ('.' :: (s.data ++ rest.flatMap fun s => '.' :: s.data)) = _
      rw [rep_dot_no_bracket (by
        cases hsd : s.data with
        | nil =>
          simp only [List.nil_append]
          rcases hF with hnil | ⟨tl, htl⟩
          · exact Or.inl hnil
          · exact Or.inr ⟨'.', tl, htl, by decide⟩
        | cons c cs =>
          right
          refine ⟨c, cs ++ (rest.flatMap fun s => '.' :: s.data),
            by rw [List.cons_append], ?_⟩
          have hcc := hfield c (by rw [hsd]; exact List.mem_cons_self ..)
          intro he
          subst he
          simp at hcc)]
      rw [rep_append_no_dot s.data _ hnodot, ih hrest]
      rw [show rseg s = '.' :: s.data from if_neg hi]
      simp

theorem fmtPath_safe (segs : List String)
    (h : ∀ s ∈ segs, (isIdxSeg s || isFieldSeg s) = true) :
    (fmtPath ("$" :: segs)).data = '$' :: segs.flatMap rseg := by
  unfold fmtPath
  rw [List.map_cons, joinDot_cons]
  have hmm : ∀ (r : List String), ((r.map String.data).flatMap fun y => '.' :: y) =
      r.flatMap fun s => '.' :: s.data := by
    intro r
    induction r with
    | nil => rfl
    | cons q r' ihq => simp [List.flatMap_cons, ihq]
  show repDotBracket ("$".data ++ ((segs.map String.data).flatMap fun y => '.' :: y)) = _
  rw [hmm segs]
  show repDotBracket ('$' :: segs.flatMap fun s => '.' :: s.data) = _
  rw [rep_cons_ne (by decide) _, rep_joinSegs segs h]

theorem takeWhile_append_of_all (p : Char → Bool) :
    ∀ (t r : List Char), (∀ c ∈ t, p c = true) →
      (r = [] ∨ ∃ c tl, r = c :: tl ∧ p c = false) →
      (t ++ r).takeWhile p = t ∧ (t ++ r).dropWhile p = r := by
  intro t
  induction t with
  | nil =>
    intro r _ hr
    rcases hr with rfl | ⟨c, tl, rfl, hc⟩
    · exact ⟨rfl, rfl⟩
    · constructor
      · show List.takeWhile p (c :: tl) = []
        simp [List.takeWhile_cons, hc]
      · show List.dropWhile p (c :: tl) = c :: tl
        simp [List.dropWhile_cons, hc]
  | cons a t' ih =>
    intro r ht hr
    have ha : p a = true := ht a (List.mem_cons_self ..)
    rcases ih r (fun c hc => ht c (List.mem_cons_of_mem _ hc)) hr with ⟨h1, h2⟩
    constructor
    · show List.takeWhile p (a :: (t' ++ r)) = a :: t'
      simp [List.takeWhile_cons, ha, h1]
    · show List.dropWhile p (a :: (t' ++ r)) = r
      simp [List.dropWhile_cons, ha, h2]

theorem pbSegs_roundtrip :
    ∀ (segs : List String) (fuel : Nat), segs.length ≤ fuel →
      (∀ s ∈ segs, (isIdxSeg s || isFieldSeg s) = true) →
      pbSegs fuel (segs.flatMap rseg) = some segs := by
  intro segs
  induction segs with
  | nil =>
    intro fuel _ _
    cases fuel with
    | zero => rfl
    | succ f => rfl
  | cons s rest ih =>
    intro fuel hlen h
    have hrest : ∀ x ∈ rest, (isIdxSeg x || isFieldSeg x) = true :=
      fun x hx => h x (List.mem_cons_of_mem _ hx)
    cases fuel with
    | zero => simp at hlen
    | succ f =>
      have hlen' : rest.length ≤ f := by
        simp only [List.length_cons] at hlen
        omega
      rw [List.flatMap_cons]
      by_cases hi : isIdxSeg s = true
      · rcases isIdxSeg_decomp hi with ⟨ds, hds, _, hdig⟩
        rw [show rseg s = s.data from if_pos hi, hds]
        have hassoc : ('[' :: ds ++ [']']) ++ rest.flatMap rseg =
            '[' :: (ds ++ (']' :: rest.flatMap rseg)) := by simp
        rw [hassoc]
        have hsplit := takeWhile_append_of_all (fun c => !(c = ']')) ds
          (']' :: rest.flatMap rseg)
          (fun c hc => by
            have hne := digit_ne_rbracket (hdig c hc)
            simpa using hne)
          (Or.inr ⟨']', rest.flatMap rseg, rfl, by decide⟩)
        show (match (ds ++ ']' :: rest.flatMap rseg).dropWhile (fun c => !(c = ']')) with
          | ']' :: rest' =>
            (pbSegs f rest').map
              (String.mk ('[' ::
                ((ds ++ ']' :: rest.flatMap rseg).takeWhile fun c => !(c = ']')) ++ [']']) :: ·)
          | _ => none) = some (s :: rest)
        rw [hsplit.1, hsplit.2]
        show (pbSegs f (rest.flatMap rseg)).map (String.mk ('[' :: ds ++ [']']) :: ·) = _
        rw [ih f hlen' hrest]
        show some (String.mk ('[' :: ds ++ [']']) :: rest) = some (s :: rest)
        rw [← hds]
      · have hf : isFieldSeg s = true := by
          rcases Bool.or_eq_true .. |>.mp (h s (List.mem_cons_self ..)) with h' | h'
          · exact absurd h' hi
          · exact h'
        rw [show rseg s = '.' :: s.data from if_neg hi]
        have hsplit := takeWhile_append_of_all (fun c => !(c = '.') && !(c = '['))
          s.data (rest.flatMap rseg) (List.all_eq_true.1 hf)
          (by
            rcases flatMap_rseg_headFails hrest with hnil | ⟨c, tl, heq, hc⟩
            · exact Or.inl hnil
            · exact Or.inr ⟨c, tl, heq, hc⟩)
        show (pbSegs f ((s.data ++ rest.flatMap rseg).dropWhile
            fun c => !(c = '.') && !(c = '['))).map
          (String.mk ((s.data ++ rest.flatMap rseg).takeWhile
            fun c => !(c = '.') && !(c = '[')) :: ·) = some (s :: rest)
        rw [hsplit.1, hsplit.2, ih f hlen' hrest]
        rfl

theorem rseg_length_pos {s : String} (_h : (isIdxSeg s || isFieldSeg s) = true) :
    1 ≤ (rseg s).length := by
  unfold rseg
  by_cases hi : isIdxSeg s = true
  · rw [if_pos hi]
    rcases isIdxSeg_decomp hi with ⟨ds, hds, _, _⟩
    rw [hds]
    simp
  · rw [if_neg hi]
    simp

theorem flatMap_rseg_length (segs : List String)
    (h : ∀ s ∈ segs, (isIdxSeg s || isFieldSeg s) = true) :
    segs.length ≤ (segs.flatMap rseg).length := by
  induction segs with
  | nil => simp
  | cons s rest ih =>
    rw [List.flatMap_cons, List.length_append, List.length_cons]
    have h1 := rseg_length_pos (h s (List.mem_cons_self ..))
    have h2 := ih (fun x hx => h x (List.mem_cons_of_mem _ hx))
    omega

/-- C4 counterexample: the two distinct documents `{"a.b":[1]}` and
`{"a":{"b":[1]}}` place their only array at the distinct key chains
`["$","a.b"]` and `["$","a","b"]`, yet the engine renders the same
path string `$.a.b` for both — the formatted path does not uniquely
identify the location once a field name contains `.`, so it is not
reversible in general. -/
theorem c4_counterexample :
    ((deriveGridData c4PA c8PJ "\x7b\"a.b\":[1]\x7d").data.map fun d => d.path) =
      some "$.a.b" ∧
    ((deriveGridData c4PB c8PJ "\x7b\"a\":\x7b\"b\":[1]\x7d\x7d").data.map fun d => d.path) =
      some "$.a.b" ∧
    ((keptCands (.obj [("a.b", .arr [.num 1])])).map fun c => c.path) =
      [["$", "a.b"]] ∧
    ((keptCands (.obj [("a", .obj [("b", .arr [.num 1])])])).map fun c => c.path) =
      [["$", "a", "b"]] ∧
    (["$", "a.b"] : List String) ≠ ["$", "a", "b"] := by
  refine ⟨by rfl, by rfl, by rfl, by rfl, by decide⟩

/-- C4 amended: the formatted path is reversible exactly on the safe
fragment — when every segment of the winning chain is an array index
`[i]` or a field name containing neither `.` nor `[`, the rendered
string maps back to the original object-key / array-index chain (so
distinct safe chains render to distinct strings); outside that
fragment the rendering is ambiguous. -/
theorem c4_amended (segs : List String)
    (h : ∀ s ∈ segs, (isIdxSeg s || isFieldSeg s) = true) :
    pathBack (fmtPath ("$" :: segs)) = some ("$" :: segs) := by
  have hd := fmtPath_safe segs h
  unfold pathBack
  rw [hd]
  show (pbSegs ((segs.flatMap rseg).length + 1) (segs.flatMap rseg)).map
    (("$" : String) :: ·) = some ("$" :: segs)
  rw [pbSegs_roundtrip segs ((segs.flatMap rseg).length + 1)
    (le_trans (flatMap_rseg_length segs h) (Nat.le_succ _)) h]
  rfl

theorem c4_amended_witness :
    (∀ s ∈ (["data", "[0]", "items"] : List String),
      (isIdxSeg s || isFieldSeg s) = true) ∧
    pathBack (fmtPath ("$" :: ["data", "[0]", "items"])) =
      some ("$" :: ["data", "[0]", "items"]) :=
  ⟨by decide, c4_amended ["data", "[0]", "items"] (by decide)⟩

theorem walkElems_enumFrom :
    ∀ (xs : List Json) (i : Nat) (path : List String),
      walkElems i xs path = (List.enumFrom i xs).flatMap
        (fun p => walkForArrays p.2 (path ++ [pathSeg p.1])) := by
  intro xs
  induction xs with
  | nil => intro i path; rfl
  | cons v rest ih =>
    intro i path
    show walkForArrays v (path ++ [pathSeg i]) ++ walkElems (i + 1) rest path = _
    rw [ih]
    rfl
/-- C2: candidate selection is deterministic and favors earlier
discovery on ties. For every successfully parsed document: (a) the
kept candidates are exactly the walked arrays whose score survives the
`score > 0` filter, and every survivor has positive score; (b) the
walk is a depth-first pre-order in which an array node is yielded
before its own elements are walked, elements in index order; (c) the
sort is a permutation of the kept candidates, in descending score
order, and a score tie between two candidates preserves their
discovery order; (d) with no kept candidate the engine returns the
empty result, and otherwise the selected candidate — the head of the
sorted list, from which the engine builds its output — splits the kept
list as `pre ++ best :: post` where everything in `pre` scores
strictly less and nothing anywhere scores more: the earliest maximum
wins. -/
theorem c2_candidate_selection (p5 pJ : Parser) (text : String) (root : Json)
    (hne : (jsTrim text.data).isEmpty = false)
    (hp : parseTolerant p5 pJ text = .ok root) :
    (keptCands root = ((walkForArrays root ["$"]).map mkCand).filter
        (fun c => c.score.isPos) ∧
      ∀ c ∈ keptCands root, 0 < c.score.interp) ∧
    ((∀ (xs : List Json) (path : List String),
        walkForArrays (.arr xs) path = (path, xs) :: walkElems 0 xs path) ∧
      (∀ (xs : List Json) (i : Nat) (path : List String),
        walkElems i xs path = (List.enumFrom i xs).flatMap
          (fun p => walkForArrays p.2 (path ++ [pathSeg p.1])))) ∧
    (List.Perm ((keptCands root).insertionSort candLe) (keptCands root) ∧
      ((keptCands root).insertionSort candLe).Pairwise
        (fun a b => b.score.interp ≤ a.score.interp) ∧
      ∀ a b : Cand, a.score.interp = b.score.interp →
        List.Sublist [a, b] (keptCands root) →
        List.Sublist [a, b] ((keptCands root).insertionSort candLe)) ∧
    (keptCands root = [] → deriveGridData p5 pJ text = ⟨none, none⟩) ∧
    (∀ best : Cand, ((keptCands root).insertionSort candLe).head? = some best →
      deriveGridData p5 pJ text = ⟨some (buildBest best), none⟩ ∧
      ∃ pre post, keptCands root = pre ++ best :: post ∧
        (∀ x ∈ pre, x.score.interp < best.score.interp) ∧
        (∀ x ∈ keptCands root, x.score.interp ≤ best.score.interp)) := by
  refine ⟨⟨rfl, ?_⟩, ⟨fun xs path => rfl, walkElems_enumFrom⟩,
    ⟨List.perm_insertionSort candLe _, engine_sorted_desc _, ?_⟩, ?_, ?_⟩
  · intro c hc
    unfold keptCands at hc
    exact (Score.isPos_iff c.score).1 (List.mem_filter.1 hc).2
  · intro a b heq hsub
    exact insertionSort_stable_pair heq _ hsub
  · intro hk
    unfold deriveGridData
    rw [if_neg (by simp [hne]), hp]
    show (if (keptCands root).isEmpty then (⟨none, none⟩ : DerivationOutput)
      else match (keptCands root).insertionSort candLe with
        | best :: _ => ⟨some (buildBest best), none⟩
        | [] => ⟨none, none⟩) = ⟨none, none⟩
    rw [hk]
    rfl
  · intro best hbest
    cases hk : keptCands root with
    | nil =>
      rw [hk] at hbest
      simp [List.insertionSort] at hbest
    | cons c rest =>
      rw [hk, head?_insertionSort] at hbest
      have hbe' : some (pickBest c rest) = some best := hbest
      have hbe : pickBest c rest = best := Option.some.inj hbe'
      constructor
      · unfold deriveGridData
        rw [if_neg (by simp [hne]), hp]
        show (if (keptCands root).isEmpty then (⟨none, none⟩ : DerivationOutput)
          else match (keptCands root).insertionSort candLe with
            | best :: _ => ⟨some (buildBest best), none⟩
            | [] => ⟨none, none⟩) = ⟨some (buildBest best), none⟩
        rw [hk]
        show (match (c :: rest).insertionSort candLe with
          | best :: _ => (⟨some (buildBest best), none⟩ : DerivationOutput)
          | [] => ⟨none, none⟩) = ⟨some (buildBest best), none⟩
        cases hsort : (c :: rest).insertionSort candLe with
        | nil =>
          have hperm := List.perm_insertionSort candLe (c :: rest)
          rw [hsort] at hperm
          exact absurd hperm.symm (by simp)
        | cons b tail =>
          have h1 : ((c :: rest).insertionSort candLe).head? = some b := by
            rw [hsort]; rfl
          rw [head?_insertionSort] at h1
          have h2 : some (pickBest c rest) = some b := h1
          have hb : b = best := Option.some.inj (h2.symm.trans hbe')
          rw [hb]
      · have hspec := pickBest_spec rest c
        rw [hbe] at hspec
        rcases hspec with ⟨hmax, pre, post, hsplit, hpre⟩
        refine ⟨pre, post, hsplit, hpre, ?_⟩
        intro x hx
        exact hmax x hx
theorem c2_witness :
    ((jsTrim "[[1],2]".data).isEmpty = false ∧
      parseTolerant c2P5 c8PJ "[[1],2]" = .ok (.arr [.arr [.num 1], .num 2])) ∧
    ((keptCands (.arr [.arr [.num 1], .num 2]) =
        ((walkForArrays (.arr [.arr [.num 1], .num 2]) ["$"]).map mkCand).filter
          (fun c => c.score.isPos) ∧
      ∀ c ∈ keptCands (.arr [.arr [.num 1], .num 2]), 0 < c.score.interp) ∧
    ((∀ (xs : List Json) (path : List String),
        walkForArrays (.arr xs) path = (path, xs) :: walkElems 0 xs path) ∧
      (∀ (xs : List Json) (i : Nat) (path : List String),
        walkElems i xs path = (List.enumFrom i xs).flatMap
          (fun p => walkForArrays p.2 (path ++ [pathSeg p.1])))) ∧
    (List.Perm ((keptCands (.arr [.arr [.num 1], .num 2])).insertionSort candLe)
        (keptCands (.arr [.arr [.num 1], .num 2])) ∧
      ((keptCands (.arr [.arr [.num 1], .num 2])).insertionSort candLe).Pairwise
        (fun a b => b.score.interp ≤ a.score.interp) ∧
      ∀ a b : Cand, a.score.interp = b.score.interp →
        List.Sublist [a, b] (keptCands (.arr [.arr [.num 1], .num 2])) →
        List.Sublist [a, b]
          ((keptCands (.arr [.arr [.num 1], .num 2])).insertionSort candLe)) ∧
    (keptCands (.arr [.arr [.num 1], .num 2]) = [] →
      deriveGridData c2P5 c8PJ "[[1],2]" = ⟨none, none⟩) ∧
    (∀ best : Cand,
      ((keptCands (.arr [.arr [.num 1], .num 2])).insertionSort candLe).head? =
        some best →
      deriveGridData c2P5 c8PJ "[[1],2]" = ⟨some (buildBest best), none⟩ ∧
      ∃ pre post, keptCands (.arr [.arr [.num 1], .num 2]) =
          pre ++ best :: post ∧
        (∀ x ∈ pre, x.score.interp < best.score.interp) ∧
        (∀ x ∈ keptCands (.arr [.arr [.num 1], .num 2]),
          x.score.interp ≤ best.score.interp))) :=
  ⟨⟨by rfl, by rfl⟩,
    c2_candidate_selection c2P5 c8PJ "[[1],2]" (.arr [.arr [.num 1], .num 2])
      (by rfl) (by rfl)⟩
